import Mathlib

/-!
Verification development for the uncrustify parenthesis-insertion pass
(src/parens.cpp) and the same-function-call-parameter aligner
(align_same_func_call_params.cpp).

The token stream is shallowly embedded as a `List Chunk`; traversal
primitives (`GetNextNcNnl`, `GetPrevNcNnl`, `GetNextType`,
`GetClosingParen`, ...) become index-valued searches, and the in-place
mutations of the C++ code become functions from streams to streams.
Fuel arguments make every loop structurally recursive; every fuel bound
used by a top-level entry point is large enough that fuel never runs out
on inputs reachable from that entry point.
-/

set_option autoImplicit false

/-- Token kinds (`c_token_t` values) that the two passes inspect, plus
`other` standing for every token kind none of the scanned code
distinguishes.  Parent-construct tags (`CT_IF`, `CT_WHILE`, ...) reuse
the same type. -/
inductive TokType where
  | ifTok | elseifTok | switchTok | whileTok
  | sparenOpen | sparenClose
  | parenOpen | parenClose
  | fparenOpen | fparenClose
  | braceOpen | braceClose
  | squareOpen | squareClose
  | angleOpen | angleClose
  | boolOp | question | condColon | comma
  | compare | semicolon
  | assign | ret
  | newline | comment
  | funcCall | member | dcMember | typeTok
  | number | numberFP | pos | neg
  | other
  deriving DecidableEq, Repr, Inhabited

/-- One token record (the `Chunk` class): kind, parent-construct tag,
text, the three nesting counters, position data and the two flags the
passes test (`PCF_IN_PREPROC`, `PCF_STMT_START`). -/
structure Chunk where
  type : TokType
  parent : TokType
  text : String
  level : Nat
  braceLevel : Nat
  ppLevel : Nat
  column : Nat
  origCol : Nat
  origColEnd : Nat
  origLine : Nat
  nlCount : Nat
  inPreproc : Bool
  stmtStart : Bool
  deriving DecidableEq, Repr

/-- Stand-in for `Chunk::NullChunk`: the value produced when an index is
out of range. -/
def defaultChunk : Chunk :=
  { type := .other, parent := .other, text := "", level := 0, braceLevel := 0,
    ppLevel := 0, column := 0, origCol := 0, origColEnd := 0, origLine := 0,
    nlCount := 0, inPreproc := false, stmtStart := false }

instance : Inhabited Chunk := ⟨defaultChunk⟩

/-- Read the chunk at index `i`; out of range reads give the null chunk. -/
def getC (s : List Chunk) (i : Nat) : Chunk := s.getD i defaultChunk

/-- Read through an optional index (`none` is the null chunk). -/
def optC (s : List Chunk) : Option Nat → Chunk
  | none => defaultChunk
  | some i => getC s i

/-- Neither a comment nor a newline (the tokens `GetNextNcNnl` visits). -/
def isNcNnl (c : Chunk) : Bool := c.type ≠ .comment ∧ c.type ≠ .newline

/-- Not a comment (the tokens `GetPrevNc` visits). -/
def isNc (c : Chunk) : Bool := c.type ≠ .comment

/-- Forward search: first index `≥ i` (bounded by `fuel` steps) whose
chunk satisfies `p`. -/
def findFwd (s : List Chunk) (p : Chunk → Bool) : Nat → Nat → Option Nat
  | 0, _ => none
  | fuel+1, i =>
    if i < s.length then
      if p (getC s i) then some i else findFwd s p fuel (i+1)
    else none

/-- Backward search: first index `≤ i` (bounded by `fuel` steps) whose
chunk satisfies `p`; indices at or beyond the length never match. -/
def findBwd (s : List Chunk) (p : Chunk → Bool) : Nat → Nat → Option Nat
  | 0, _ => none
  | fuel+1, i =>
    if i < s.length ∧ p (getC s i) then some i
    else if i = 0 then none
    else findBwd s p fuel (i-1)

/-- `Chunk::GetNextNcNnl`: next non-comment non-newline token after `i`. -/
def nextNcNnl (s : List Chunk) (i : Nat) : Option Nat :=
  findFwd s isNcNnl s.length (i+1)

/-- `Chunk::GetPrevNcNnl`: previous non-comment non-newline token. -/
def prevNcNnl (s : List Chunk) (i : Nat) : Option Nat :=
  if i = 0 then none else findBwd s isNcNnl s.length (i-1)

/-- `Chunk::GetPrevNc`: previous non-comment token. -/
def prevNc (s : List Chunk) (i : Nat) : Option Nat :=
  if i = 0 then none else findBwd s isNc s.length (i-1)

/-- `Chunk::GetNextType(t, lvl)`: next token after `i` of type `t` at
nesting level `lvl`. -/
def nextType (s : List Chunk) (i : Nat) (t : TokType) (lvl : Nat) : Option Nat :=
  findFwd s (fun c => c.type = t ∧ c.level = lvl) s.length (i+1)

/-- Closing-token kind matching an opening kind. -/
def closeOf : TokType → Option TokType
  | .parenOpen => some .parenClose
  | .sparenOpen => some .sparenClose
  | .fparenOpen => some .fparenClose
  | .braceOpen => some .braceClose
  | .squareOpen => some .squareClose
  | .angleOpen => some .angleClose
  | _ => none

/-- `Chunk::GetClosingParen`: the next token of the matching closing kind
at the same level. -/
def closingMatch (s : List Chunk) (i : Nat) : Option Nat :=
  match closeOf (getC s i).type with
  | none => none
  | some t => nextType s i t (getC s i).level

/-- `Chunk::IsParenOpen`. -/
def isParenOpenT (t : TokType) : Bool :=
  t = .parenOpen ∨ t = .sparenOpen ∨ t = .fparenOpen

/-- Boundary operators of `check_bool_parens`: `CT_BOOL`, `CT_QUESTION`,
`CT_COND_COLON`, `CT_COMMA`. -/
def isBoundaryT (t : TokType) : Bool :=
  t = .boolOp ∨ t = .question ∨ t = .condColon ∨ t = .comma

/-- Bracket kinds that `check_bool_parens` skips without descending. -/
def isBraceLikeT (t : TokType) : Bool :=
  t = .braceOpen ∨ t = .squareOpen ∨ t = .angleOpen

/-- Insert a chunk so that it ends up at index `n` (everything from `n`
on shifts right by one). -/
def insertAt (a : Chunk) : Nat → List Chunk → List Chunk
  | 0, l => a :: l
  | _+1, [] => [a]
  | n+1, c :: l => c :: insertAt a n l

/-- Apply `f` to the chunk at index `i`, if any. -/
def modifyAt (f : Chunk → Chunk) : Nat → List Chunk → List Chunk
  | _, [] => []
  | 0, c :: l => f c :: l
  | n+1, c :: l => c :: modifyAt f n l

/-- Shift the visual columns of one chunk right by one unit. -/
def shiftChunk (c : Chunk) : Chunk :=
  { c with column := c.column + 1, origCol := c.origCol + 1,
           origColEnd := c.origColEnd + 1 }

/-- Column-shift run of `add_parens_between`: shift every chunk up to and
including the first newline (the C++ loop increments, then breaks on
`CT_NEWLINE`). -/
def shiftRun : List Chunk → List Chunk
  | [] => []
  | c :: l =>
    if c.type = .newline then shiftChunk c :: l
    else shiftChunk c :: shiftRun l

/-- Shift columns from index `i` through the rest of that source line. -/
def shiftCols : List Chunk → Nat → List Chunk
  | [], _ => []
  | l, 0 => shiftRun l
  | c :: l, n+1 => c :: shiftCols l n

/-- Increment a chunk's level by one. -/
def bumpLvl (c : Chunk) : Chunk := { c with level := c.level + 1 }

/-- Level-increment loop of `add_parens_between`: starting at `i`, bump
the level of every `GetNextNcNnl`-visited chunk strictly before `stop`. -/
def bumpLoop : Nat → List Chunk → Nat → Nat → List Chunk
  | 0, s, _, _ => s
  | fuel+1, s, i, stop =>
    if i = stop then s
    else
      let s1 := modifyAt bumpLvl i s
      match nextNcNnl s1 i with
      | none => s1
      | some j => bumpLoop fuel s1 j stop

/-- Synthesized open parenthesis, inheriting position, level data and
the preprocessor flag from the token it is placed before
(`PCF_COPY_FLAGS` is approximated by copying the in-preprocessor flag). -/
def poChunk (c : Chunk) : Chunk :=
  { type := .parenOpen, parent := .other, text := "(",
    level := c.level, braceLevel := c.braceLevel,
    ppLevel := c.ppLevel, column := c.column,
    origCol := c.origCol, origColEnd := c.origColEnd,
    origLine := c.origLine, nlCount := 0,
    inPreproc := c.inPreproc, stmtStart := false }

/-- Synthesized close parenthesis, inheriting from the token it is
placed after, one column to the right. -/
def pclChunk (c : Chunk) : Chunk :=
  { type := .parenClose, parent := .other, text := ")",
    level := c.level, braceLevel := c.braceLevel,
    ppLevel := c.ppLevel, column := c.column + 1,
    origCol := c.origCol + 1, origColEnd := c.origColEnd + 1,
    origLine := c.origLine, nlCount := 0,
    inPreproc := c.inPreproc, stmtStart := false }

/-- First splice stage: insert the open parenthesis before the token at
`fn` and shift the columns of that line's remainder. -/
def apbOpen (s : List Chunk) (fn : Nat) : List Chunk :=
  shiftCols (insertAt (poChunk (getC s fn)) fn s) (fn+1)

/-- Second splice stage: insert the close parenthesis after the token at
`lp` and shift the columns from old index `last` on. -/
def apbClose (s2 : List Chunk) (lp last : Nat) : List Chunk :=
  shiftCols (insertAt (pclChunk (getC s2 lp)) (lp+1) s2) (last+2)

/-- Embedding of `add_parens_between(first, last)`: no-op when the two
endpoints are adjacent; otherwise synthesize an open parenthesis before
`first`'s successor and a close parenthesis after `last`'s predecessor,
shift the columns of both affected line remainders, and increment the
level of every non-comment non-newline token between the two new tokens. -/
def add_parens_between (s : List Chunk) (first last : Nat) : List Chunk :=
  match nextNcNnl s first with
  | none => s
  | some fn =>
    if fn = last then s
    else
      let s2 := apbOpen s fn
      match prevNcNnl s2 (last+1) with
      | none => s2
      | some lp =>
        let s4 := apbClose s2 lp last
        modifyAt bumpLvl lp (bumpLoop s4.length s4 (fn+1) lp)

mutual

/-- Embedding of `check_bool_parens(popen, pclose, nest)` acting on the
stream: scan the region, then (unless the scan bailed on a preprocessor
token) insert a final pair when a comparison is still pending and `ref`
has moved off the opening delimiter.  `langCs` is
`language_is_set(LANG_CS)`. -/
def checkBoolParens (langCs : Bool) : Nat → List Chunk → Nat → Nat → List Chunk
  | 0, s, _, _ => s
  | fuel+1, s, popen, pclose =>
    match cbpScan langCs fuel s popen pclose popen popen false with
    | (s1, none) => s1
    | (s1, some (pclose1, ref, hit)) =>
      if hit ∧ ref ≠ popen ∧ ¬langCs then add_parens_between s1 ref pclose1 else s1
termination_by structural fuel => fuel

/-- Scan loop of `check_bool_parens`.  Arguments after the stream:
current close-delimiter index, current token index, `ref`, and
`hit_compare`.  Returns the (possibly grown) stream together with
`none` when the scan bailed on a preprocessor-flagged token and
`some (pclose, ref, hit)` when the loop ended at the close delimiter or
at the end of the stream. -/
def cbpScan (langCs : Bool) : Nat → List Chunk → Nat → Nat → Nat → Nat → Bool →
    List Chunk × Option (Nat × Nat × Bool)
  | 0, s, _, pclose, _, ref, hit => (s, some (pclose, ref, hit))
  | fuel+1, s, popen, pclose, pc, ref, hit =>
    match nextNcNnl s pc with
    | none => (s, some (pclose, ref, hit))
    | some j =>
      if j = pclose then (s, some (pclose, ref, hit))
      else
        let c := getC s j
        if c.inPreproc then (s, none)
        else if isBoundaryT c.type then
          if hit then
            if ¬langCs then
              let s1 := add_parens_between s ref j
              let d := s1.length - s.length
              cbpScan langCs fuel s1 popen (pclose+d) (j+d) (j+d) false
            else cbpScan langCs fuel s popen pclose j j false
          else cbpScan langCs fuel s popen pclose j j false
        else if c.type = .compare then
          cbpScan langCs fuel s popen pclose j ref true
        else if isParenOpenT c.type then
          match closingMatch s j with
          | none => cbpScan langCs fuel s popen pclose j ref hit
          | some k =>
            let s1 := checkBoolParens langCs fuel s j k
            let d := s1.length - s.length
            cbpScan langCs fuel s1 popen (pclose+d) (k+d) ref hit
        else if c.type = .semicolon then
          cbpScan langCs fuel s popen pclose j j hit
        else if isBraceLikeT c.type then
          match closingMatch s j with
          | none => (s, some (pclose, ref, hit))
          | some k => cbpScan langCs fuel s popen pclose k ref hit
        else cbpScan langCs fuel s popen pclose j ref hit
termination_by structural fuel => fuel

end

/-- Fuel bound handed to `checkBoolParens` by the three entry points. -/
def cbFuel (s : List Chunk) : Nat := (s.length + 2) * (s.length + 2)

/-- Outer loop of `do_parens`: find each `CT_SPAREN_OPEN` whose parent is
an if / else-if / switch, locate the matching `CT_SPAREN_CLOSE` at the
same level, and run `check_bool_parens` on the region. -/
def doParensLoop (langCs : Bool) : Nat → List Chunk → Nat → List Chunk
  | 0, s, _ => s
  | fuel+1, s, pc =>
    match nextNcNnl s pc with
    | none => s
    | some j =>
      let c := getC s j
      if c.type = .sparenOpen ∧
          (c.parent = .ifTok ∨ c.parent = .elseifTok ∨ c.parent = .switchTok) then
        match nextType s j .sparenClose c.level with
        | none => doParensLoop langCs fuel s j
        | some k =>
          let s1 := checkBoolParens langCs (cbFuel s) s j k
          doParensLoop langCs fuel s1 (k + (s1.length - s.length))
      else doParensLoop langCs fuel s j

/-- Embedding of `do_parens()`.  `enabled` is the option
`mod_full_paren_if_bool`; `langCs` is `language_is_set(LANG_CS)`. -/
def do_parens (enabled langCs : Bool) (s : List Chunk) : List Chunk :=
  if enabled then doParensLoop langCs (4 * s.length + 8) s 0 else s

/-- Word width of `size_t` in the backward scan of `do_parens_assign` /
`do_parens_return` (the `check_level - 1` comparison wraps). -/
def wordW : Nat := 18446744073709551616

/-- `size_t` decrement modulo the word width. -/
def decW (n : Nat) : Nat := (n + wordW - 1) % wordW

/-- Backward scan of `do_parens_assign` / `do_parens_return`: starting at
the token before the assignment / return, walk `GetPrevNc` links until a
statement start, an opening sparen, the start of the stream, or a level
drop below `check_level - 1`; returns the stopping token (or `none` for
the null chunk). -/
def backScan (s : List Chunk) : Nat → Nat → Option Nat → Option Nat
  | _, _, none => none
  | 0, _, some p => some p
  | fuel+1, checkLevel, some p =>
    let c := getC s p
    if c.stmtStart then some p
    else
      let cl := if c.type = .parenOpen then decW checkLevel else checkLevel
      if c.type = .sparenOpen then some p
      else
        match prevNc s p with
        | none => none
        | some q =>
          if (getC s q).level < decW cl then some q
          else backScan s fuel cl (some q)

/-- Parent-construct tag seen through an optional index (the null chunk
reports no parent). -/
def parentT (s : List Chunk) : Option Nat → TokType
  | none => .other
  | some p => (getC s p).parent

/-- Condition under which `do_parens_assign` / `do_parens_return` skip a
statement: the backward scan from token `j` stops on a token whose
parent construct is a while. -/
def stmtBackSkip (s : List Chunk) (j : Nat) : Bool :=
  parentT s (backScan s (s.length + 1) (getC s j).level (prevNc s j)) = .whileTok

/-- Outer loop of `do_parens_assign`: for each `CT_ASSIGN`, unless the
backward scan lands on a while-parented token, run `check_bool_parens`
from the assignment to its terminating semicolon. -/
def doParensAssignLoop (langCs : Bool) : Nat → List Chunk → Nat → List Chunk
  | 0, s, _ => s
  | fuel+1, s, pc =>
    match nextNcNnl s pc with
    | none => s
    | some j =>
      if (getC s j).type = .assign then
        if stmtBackSkip s j then doParensAssignLoop langCs fuel s j
        else
          match nextType s j .semicolon (getC s j).level with
          | none => doParensAssignLoop langCs fuel s j
          | some k =>
            let s1 := checkBoolParens langCs (cbFuel s) s j k
            doParensAssignLoop langCs fuel s1 (k + (s1.length - s.length))
      else doParensAssignLoop langCs fuel s j

/-- Embedding of `do_parens_assign()` (option
`mod_full_paren_assign_bool`). -/
def do_parens_assign (enabled langCs : Bool) (s : List Chunk) : List Chunk :=
  if enabled then doParensAssignLoop langCs (4 * s.length + 8) s 0 else s

/-- Outer loop of `do_parens_return`, identical to the assign loop except
that it triggers on `CT_RETURN`. -/
def doParensReturnLoop (langCs : Bool) : Nat → List Chunk → Nat → List Chunk
  | 0, s, _ => s
  | fuel+1, s, pc =>
    match nextNcNnl s pc with
    | none => s
    | some j =>
      if (getC s j).type = .ret then
        if stmtBackSkip s j then doParensReturnLoop langCs fuel s j
        else
          match nextType s j .semicolon (getC s j).level with
          | none => doParensReturnLoop langCs fuel s j
          | some k =>
            let s1 := checkBoolParens langCs (cbFuel s) s j k
            doParensReturnLoop langCs fuel s1 (k + (s1.length - s.length))
      else doParensReturnLoop langCs fuel s j

/-- Embedding of `do_parens_return()` (option
`mod_full_paren_return_bool`). -/
def do_parens_return (enabled langCs : Bool) (s : List Chunk) : List Chunk :=
  if enabled then doParensReturnLoop langCs (4 * s.length + 8) s 0 else s

/-- Shorthand for building test chunks. -/
def mk (t : TokType) (txt : String) (lvl col : Nat) : Chunk :=
  { type := t, parent := .other, text := txt, level := lvl, braceLevel := 0,
    ppLevel := 0, column := col, origCol := col,
    origColEnd := col + txt.length, origLine := 1, nlCount := 1,
    inPreproc := false, stmtStart := false }

/-- Token stream of `if (a && b == 1)`. -/
def exIf1 : List Chunk :=
  [ mk .ifTok "if" 0 1,
    { mk .sparenOpen "(" 0 4 with parent := .ifTok },
    mk .other "a" 1 5,
    mk .boolOp "&&" 1 7,
    mk .other "b" 1 10,
    mk .compare "==" 1 12,
    mk .number "1" 1 15,
    { mk .sparenClose ")" 0 16 with parent := .ifTok },
    mk .newline "" 0 17 ]

/-- Token stream of `if (a == 1 || b > 2)`. -/
def exIf2 : List Chunk :=
  [ mk .ifTok "if" 0 1,
    { mk .sparenOpen "(" 0 4 with parent := .ifTok },
    mk .other "a" 1 5,
    mk .compare "==" 1 7,
    mk .number "1" 1 10,
    mk .boolOp "||" 1 12,
    mk .other "b" 1 15,
    mk .compare ">" 1 17,
    mk .number "2" 1 19,
    { mk .sparenClose ")" 0 20 with parent := .ifTok },
    mk .newline "" 0 21 ]

/-- Token stream of `if (!a && b)`. -/
def exIf3 : List Chunk :=
  [ mk .ifTok "if" 0 1,
    { mk .sparenOpen "(" 0 4 with parent := .ifTok },
    mk .other "!" 1 5,
    mk .other "a" 1 6,
    mk .boolOp "&&" 1 8,
    mk .other "b" 1 11,
    { mk .sparenClose ")" 0 12 with parent := .ifTok },
    mk .newline "" 0 13 ]

/-- Region with a newline strictly inside the span that
`add_parens_between` wraps: `&& a <newline> b )`. -/
def exNl : List Chunk :=
  [ mk .boolOp "&&" 1 1,
    mk .other "a" 1 4,
    mk .newline "" 1 6,
    mk .other "b" 1 7,
    { mk .sparenClose ")" 0 9 with parent := .ifTok },
    mk .newline "" 0 10 ]

/-- Token stream of `if (a == 1 && b)` where `b` carries
`PCF_IN_PREPROC`. -/
def exPp : List Chunk :=
  [ mk .ifTok "if" 0 1,
    { mk .sparenOpen "(" 0 4 with parent := .ifTok },
    mk .other "a" 1 5,
    mk .compare "==" 1 7,
    mk .number "1" 1 10,
    mk .boolOp "&&" 1 12,
    { mk .other "b" 1 15 with inPreproc := true },
    { mk .sparenClose ")" 0 16 with parent := .ifTok },
    mk .newline "" 0 17 ]

/-- Condition region `( a == b ; c && d )` containing a statement
terminator: the comparison before the terminator is still pending when
the boundary after it is reached. -/
def exSemi : List Chunk :=
  [ { mk .sparenOpen "(" 0 1 with parent := .ifTok },
    mk .other "a" 1 2,
    mk .compare "==" 1 4,
    mk .other "b" 1 7,
    mk .semicolon ";" 1 8,
    mk .other "c" 1 10,
    mk .boolOp "&&" 1 12,
    mk .other "d" 1 15,
    { mk .sparenClose ")" 0 16 with parent := .ifTok },
    mk .newline "" 0 17 ]

/-- Do-while tail `while (x = a);` shaped stream: the backward scan from
the assignment stops on the while-parented sparen. -/
def exDoWhile : List Chunk :=
  [ { mk .sparenOpen "(" 0 7 with parent := .whileTok },
    mk .other "x" 1 8,
    mk .assign "=" 1 10,
    mk .other "a" 1 12,
    mk .compare "==" 1 14,
    mk .number "1" 1 17,
    mk .boolOp "&&" 1 19,
    mk .other "b" 1 22,
    { mk .sparenClose ")" 0 23 with parent := .whileTok },
    mk .semicolon ";" 0 24,
    mk .newline "" 0 25 ]

/-- Identifier of one AlignStack instance used by the aligner: the stack
of call tokens (`fcn_as`) or the per-argument-position stack `k`
(`array_of_AlignStack[k]`). -/
inductive StackId where
  | fcn
  | arg (k : Nat)
  deriving DecidableEq, Repr

/-- Modelled from the spec: the AlignStack collaborator is not part of
this repository's sources, so its narrow contract (`Start`, `Add`,
`NewLines`, `Flush` = discard pending alignment, `End` = finalize and
apply, mutable `rightAlign`) is recorded as an operation trace and
interpreted by `applyOps` below. -/
inductive AlignOp where
  | start (id : StackId) (span thresh : Nat)
  | add (id : StackId) (tok : Nat)
  | newlines (id : StackId) (n : Nat)
  | flush (id : StackId)
  | fin (id : StackId)
  | setRight (id : StackId) (b : Bool)
  deriving DecidableEq, Repr

/-- Configuration read by the aligner. -/
structure AlignCfg where
  spanOpt : Nat
  thresh : Nat
  alignNumberRight : Bool
  alignOnTabstop : Bool
  deriving DecidableEq, Repr

/-- Effective span: the option value when positive, else the default 3. -/
def effSpan (cfg : AlignCfg) : Nat := if cfg.spanOpt > 0 then cfg.spanOpt else 3

/-- Aligner state: the active group (root token index, reconstructed
qualified name, member count), the number of per-argument stacks created
so far, each stack's `m_right_align` flag, and the emitted operation
trace. -/
structure AlignerSt where
  alignRoot : Option Nat
  alignRootName : String
  alignLen : Nat
  arrayLen : Nat
  rightAlign : List Bool
  trace : List AlignOp
  deriving DecidableEq, Repr

/-- Operations on every per-argument stack in index order. -/
def argOps (f : Nat → AlignOp) (n : Nat) : List AlignOp :=
  (List.range n).map f

/-- `GetPrev` on an index (`none` is the null chunk). -/
def prevIdx : Nat → Option Nat
  | 0 => none
  | i+1 => some i

/-- `GetPrev` through an optional index. -/
def optPrev : Option Nat → Option Nat
  | none => none
  | some i => prevIdx i

/-- Member/qualifier unwinding of `align_same_func_call_params`: while
the candidate's predecessor is a member or scope operator, step back two
tokens as long as the token before the operator is a type name. -/
def unwindMembers (s : List Chunk) : Nat → Option Nat → Option Nat
  | 0, p => p
  | fuel+1, p =>
    let c := optC s p
    if c.type = .member ∨ c.type = .dcMember then
      let tp := optPrev p
      if (optC s tp).type ≠ .typeTok then tp
      else unwindMembers s fuel (optPrev tp)
    else p

/-- Qualified-name reconstruction: concatenate the text of tokens `a`
through `b` inclusive. -/
def nameOf (s : List Chunk) (a b : Nat) : String :=
  ((s.drop a).take (b + 1 - a)).foldl (fun acc c => acc ++ c.text) ""

/-- Argument scan loop of `align_params`: `lvl` is the call's level,
`pos` the index of the current token, `hit` the at-argument-start flag.
Stops at a newline, a semicolon, or the closing function parenthesis at
the call's own level; only tokens exactly one level deeper are examined. -/
def apLoop (lvl : Nat) : List Chunk → Nat → Bool → List Nat
  | [], _, _ => []
  | c :: rest, pos, hit =>
    if c.type = .newline ∨ c.type = .semicolon ∨
        (c.type = .fparenClose ∧ c.level = lvl) then []
    else if c.level = lvl + 1 then
      if hit then pos :: apLoop lvl rest (pos+1) false
      else if c.type = .comma then apLoop lvl rest (pos+1) true
      else apLoop lvl rest (pos+1) false
    else apLoop lvl rest (pos+1) hit

/-- Embedding of `align_params(start, chunks)`: the ordered anchor-token
indices collected for the call at index `start`. -/
def align_params (s : List Chunk) (start : Nat) : List Nat :=
  match nextType s start .fparenOpen (getC s start).level with
  | none => []
  | some p0 => apLoop (getC s start).level (s.drop (p0+1)) (p0+1) true

/-- Grow a flag list to length `n`, filling with false (the default
`m_right_align` of a freshly started AlignStack). -/
def padTo (l : List Bool) (n : Nat) : List Bool :=
  l ++ List.replicate (n - l.length) false

/-- Numeric or sign-literal token kinds. -/
def isNumLike (c : Chunk) : Bool :=
  c.type = .numberFP ∨ c.type = .number ∨ c.type = .pos ∨ c.type = .neg

/-- Per-anchor loop of the aligner: for each anchor index at argument
position `idx`, reset `m_right_align` of an existing stack to false,
lazily create a missing stack (defaulting `m_right_align` from the
numeric-anchor rule), and add the anchor to the stack. -/
def argAddLoop (cfg : AlignCfg) (s : List Chunk) :
    List Nat → Nat → AlignerSt → AlignerSt
  | [], _, st => st
  | k :: rest, idx, st =>
    let st1 :=
      if idx < st.arrayLen then
        { st with rightAlign := st.rightAlign.set idx false,
                  trace := st.trace ++ [.setRight (.arg idx) false] }
      else st
    let st2 :=
      if st1.arrayLen ≤ idx then
        let ra := if cfg.alignNumberRight = false ∧ isNumLike (getC s k)
                  then !cfg.alignOnTabstop else false
        { st1 with arrayLen := idx + 1,
                   rightAlign := (padTo st1.rightAlign (idx+1)).set idx ra,
                   trace := st1.trace ++ [.start (.arg idx) (effSpan cfg) cfg.thresh] ++
                     (if cfg.alignNumberRight = false ∧ isNumLike (getC s k)
                      then [.setRight (.arg idx) (!cfg.alignOnTabstop)] else []) }
      else st1
    argAddLoop cfg s rest (idx+1)
      { st2 with trace := st2.trace ++ [.add (.arg idx) k] }

/-- One iteration of the aligner's main scan at index `i` (the chunk-list
link walking of the C++ loop; the `align_cur` next-pointer chaining is
bookkeeping for later passes and is not part of the claims modelled
here). -/
def alignStep (cfg : AlignCfg) (s : List Chunk) (st : AlignerSt) (i : Nat) :
    AlignerSt :=
  let c := getC s i
  if c.type = .funcCall then
    match unwindMembers s s.length (prevIdx i) with
    | none => st
    | some p =>
      if (getC s p).type = .newline then
        let af := p + 1
        let nm := nameOf s af i
        let st2 :=
          match st.alignRoot with
          | some r =>
            if (getC s r).braceLevel = c.braceLevel ∧ (getC s r).level = c.level ∧
                nm = st.alignRootName then
              { st with trace := st.trace ++ [.add .fcn i],
                        alignLen := st.alignLen + 1 }
            else
              { st with trace := st.trace ++ [.flush .fcn] ++
                          argOps (fun k => .flush (.arg k)) st.arrayLen ++ [.add .fcn i],
                        alignRoot := some af, alignRootName := nm, alignLen := 1 }
          | none =>
            { st with trace := st.trace ++ [.add .fcn i],
                      alignRoot := some af, alignRootName := nm, alignLen := 1 }
        argAddLoop cfg s (align_params s i) 0 st2
      else st
  else if c.type = .newline then
    { st with trace := st.trace ++ argOps (fun k => .newlines (.arg k) c.nlCount) st.arrayLen ++
        [.newlines .fcn c.nlCount] }
  else
    match st.alignRoot with
    | some r =>
      if (getC s r).braceLevel > c.braceLevel then
        { st with trace := st.trace ++ [.flush .fcn] ++
                    argOps (fun k => .flush (.arg k)) st.arrayLen,
                  alignRoot := none }
      else st
    | none => st

/-- Initial aligner state: `fcn_as.Start(span, thresh)` has been issued. -/
def alignInit (cfg : AlignCfg) : AlignerSt :=
  { alignRoot := none, alignRootName := "", alignLen := 0, arrayLen := 0,
    rightAlign := [], trace := [.start .fcn (effSpan cfg) cfg.thresh] }

/-- The aligner's main scan over the whole stream. -/
def alignScan (cfg : AlignCfg) (s : List Chunk) : AlignerSt :=
  (List.range s.length).foldl (alignStep cfg s) (alignInit cfg)

/-- Embedding of `align_same_func_call_params()`: scan, then at end of
stream finalize every stack exactly when the final group has more than
one member. -/
def align_same_func_call_params (cfg : AlignCfg) (s : List Chunk) : AlignerSt :=
  let st := alignScan cfg s
  if 1 < st.alignLen then
    { st with trace := st.trace ++ [.fin .fcn] ++
        argOps (fun k => .fin (.arg k)) st.arrayLen }
  else st

/-- Pending rows buffered by each modelled AlignStack. -/
structure PendSt where
  fcnPend : List Nat
  argPend : List (List Nat)
  deriving DecidableEq, Repr

/-- Empty pending state. -/
def pend0 : PendSt := ⟨[], []⟩

/-- Pending rows of one stack. -/
def getPend (p : PendSt) : StackId → List Nat
  | .fcn => p.fcnPend
  | .arg k => p.argPend.getD k []

/-- Replace the pending rows of one stack. -/
def setPend (p : PendSt) : StackId → List Nat → PendSt
  | .fcn, l => { p with fcnPend := l }
  | .arg k, l =>
    { p with argPend := (p.argPend ++ List.replicate (k + 1 - p.argPend.length) []).set k l }

/-- Modelled from the spec: finalizing a stack applies a common column to
every pending row. -/
def applyColumns (s : List Chunk) (idxs : List Nat) : List Chunk :=
  let m := idxs.foldl (fun acc k => max acc (getC s k).column) 0
  idxs.foldl (fun acc k => modifyAt (fun c => { c with column := m }) k acc) s

/-- Modelled from the spec: interpret an AlignStack operation trace.
`Start` and `Flush` discard pending rows, `Add` buffers a row, `End`
(`fin`) applies the common column and clears; `NewLines` and the
`rightAlign` flag do not touch the stream in this minimal contract. -/
def applyOps : List AlignOp → PendSt → List Chunk → List Chunk
  | [], _, s => s
  | op :: rest, p, s =>
    match op with
    | .start id _ _ => applyOps rest (setPend p id []) s
    | .add id k => applyOps rest (setPend p id (getPend p id ++ [k])) s
    | .newlines _ _ => applyOps rest p s
    | .flush id => applyOps rest (setPend p id []) s
    | .setRight _ _ => applyOps rest p s
    | .fin id => applyOps rest (setPend p id []) (applyColumns s (getPend p id))

/-- Finalize operations are the only trace entries that mutate columns. -/
def isFinOp : AlignOp → Bool
  | .fin _ => true
  | _ => false

/-- Two consecutive line-leading calls `foo(1)` / `foo(2)` inside a brace
block, followed by the block's closing brace at a shallower brace level. -/
def exAl : List Chunk :=
  [ mk .newline "" 1 1,
    { mk .funcCall "foo" 1 4 with braceLevel := 1 },
    { mk .fparenOpen "(" 1 7 with braceLevel := 1 },
    { mk .number "1" 2 9 with braceLevel := 1 },
    { mk .fparenClose ")" 1 10 with braceLevel := 1 },
    { mk .semicolon ";" 1 11 with braceLevel := 1 },
    { mk .newline "" 1 12 with braceLevel := 1 },
    { mk .funcCall "foo" 1 4 with braceLevel := 1 },
    { mk .fparenOpen "(" 1 7 with braceLevel := 1 },
    { mk .number "2" 2 12 with braceLevel := 1 },
    { mk .fparenClose ")" 1 13 with braceLevel := 1 },
    { mk .semicolon ";" 1 14 with braceLevel := 1 },
    { mk .newline "" 1 15 with braceLevel := 1 },
    mk .braceClose "rb" 0 1 ]

/-- Default aligner configuration used in the examples. -/
def cfg0 : AlignCfg :=
  { spanOpt := 0, thresh := 0, alignNumberRight := false, alignOnTabstop := false }

/-- Call `foo(a, <newline> b)` whose argument list spans two lines. -/
def exMl : List Chunk :=
  [ mk .funcCall "foo" 0 1,
    mk .fparenOpen "(" 0 4,
    mk .other "a" 1 5,
    mk .comma "," 1 6,
    mk .newline "" 1 7,
    mk .other "b" 1 8,
    mk .fparenClose ")" 0 9,
    mk .semicolon ";" 0 10,
    mk .newline "" 0 11 ]

/-- Single-line call `foo(g(x, y), c)` with a nested call argument. -/
def exNest : List Chunk :=
  [ mk .funcCall "foo" 0 1,
    mk .fparenOpen "(" 0 4,
    mk .funcCall "g" 1 5,
    mk .fparenOpen "(" 1 6,
    mk .other "x" 2 7,
    mk .comma "," 2 8,
    mk .other "y" 2 10,
    mk .fparenClose ")" 1 11,
    mk .comma "," 1 12,
    mk .other "c" 1 14,
    mk .fparenClose ")" 0 15,
    mk .semicolon ";" 0 16,
    mk .newline "" 0 17 ]

/-- Tokens of the argument region: everything after the call's opening
function parenthesis, up to (excluding) the first closing function
parenthesis at the call's own level. -/
def argSpan (lvl : Nat) : List Chunk → List Chunk
  | [] => []
  | c :: r =>
    if c.type = .fparenClose ∧ c.level = lvl then []
    else c :: argSpan lvl r

/-- Whether the closing function parenthesis at level `lvl` occurs in the
remaining stream. -/
def hasClose (lvl : Nat) : List Chunk → Bool
  | [] => false
  | c :: r => if c.type = .fparenClose ∧ c.level = lvl then true else hasClose lvl r

/-- The argument region's tokens exactly one level deeper than the call. -/
def topToks (lvl : Nat) (l : List Chunk) : List Chunk :=
  (argSpan lvl l).filter (fun c => c.level = lvl + 1)

/-- Comma test as a Bool. -/
def isCommaB (c : Chunk) : Bool := c.type = .comma

/-- Recognizer for a well-formed top-level comma structure: nonempty
argument groups separated by single commas (state: just after a
separator). -/
def wfA : Bool → List Bool → Bool
  | afterSep, [] => !afterSep
  | afterSep, b :: r => if b then (if afterSep then false else wfA true r) else wfA false r

/-- Well-formed argument list: empty, or groups separated by single
commas with no leading or trailing comma. -/
def wfArgs : List Bool → Bool
  | [] => true
  | b :: r => wfA true (b :: r)

/-- Anchor count produced by the argument scan, phrased on the comma
projection of the depth-filtered token list. -/
def countAnchors : List Bool → Bool → Nat
  | [], _ => 0
  | b :: r, hit =>
    if hit then 1 + countAnchors r false
    else if b then countAnchors r true
    else countAnchors r false

/-- Written arity of a call, read off the spec's description: the number
of top-level comma separators plus one, or zero when the argument region
holds no token at the argument depth. -/
def specWrittenArity (s : List Chunk) (start : Nat) : Nat :=
  match nextType s start .fparenOpen (getC s start).level with
  | none => 0
  | some p0 =>
    let t := topToks (getC s start).level (s.drop (p0+1))
    if t.isEmpty then 0 else t.countP isCommaB + 1

/-- C1: with the if-condition parenthesization option enabled and the
language not in the excluded set, `do_parens` rewrites
`if (a && b == 1)` to `if (a && (b == 1))` and
`if (a == 1 || b > 2)` to `if ((a == 1) || (b > 2))` (shown on the
text/level projection of the stream, which also exhibits the level
renumbering of the wrapped tokens), and leaves `if (!a && b)` completely
unchanged. -/
theorem c1_if_condition_examples :
    (do_parens true false exIf1).map (fun c => (c.text, c.level)) =
      [("if", 0), ("(", 0), ("a", 1), ("&&", 1), ("(", 1), ("b", 2),
       ("==", 2), ("1", 2), (")", 1), (")", 0), ("", 0)] ∧
    (do_parens true false exIf2).map (fun c => (c.text, c.level)) =
      [("if", 0), ("(", 0), ("(", 1), ("a", 2), ("==", 2), ("1", 2),
       (")", 1), ("||", 1), ("(", 1), ("b", 2), (">", 2), ("2", 2),
       (")", 1), (")", 0), ("", 0)] ∧
    do_parens true false exIf3 = exIf3 := by
  refine ⟨by decide, by decide, by decide⟩

/-- C2 counterexample: in the region `&& a <newline> b )`,
`add_parens_between` wraps `a <newline> b`, but the newline at index 3 -
a token strictly between the two inserted parentheses - keeps its old
level 1 while `a` and `b` are bumped to 2, so not every token strictly
inside the new pair has its level incremented. -/
theorem c2_newline_level_cex :
    (add_parens_between exNl 0 4).map (fun c => (c.text, c.level)) =
      [("&&", 1), ("(", 1), ("a", 2), ("", 1), ("b", 2), (")", 1),
       (")", 0), ("", 0)] ∧
    (getC (add_parens_between exNl 0 4) 3).type = .newline ∧
    (getC (add_parens_between exNl 0 4) 3).level =
      (getC exNl 2).level := by
  refine ⟨by decide, by decide, by decide⟩

/-- C4 counterexample: the condition region of `if (a == 1 && b)` where
`b` is preprocessor-flagged is not left unmodified - the insertion
around `a == 1` fires at the `&&` boundary before the scan meets the
flagged token and bails, so the pass emits `if ((a == 1) && b)`. -/
theorem c4_preproc_region_modified_cex :
    (getC exPp 6).inPreproc = true ∧
    (do_parens true false exPp).map (fun c => c.text) =
      ["if", "(", "(", "a", "==", "1", ")", "&&", "b", ")", ""] ∧
    do_parens true false exPp ≠ exPp := by
  refine ⟨by decide, by decide, by decide⟩

/-- C5 counterexample: in the region `( a == b ; c && d )` the
comparison before the terminator is not invalidated - `hit_compare`
stays set, so at the `&&` boundary after the `;` the scan inserts a pair
around the lone `c`, even though no comparison operator occurs after the
terminator. -/
theorem c5_semicolon_keeps_compare_cex :
    (checkBoolParens false 100 exSemi 0 8).map (fun c => (c.text, c.level)) =
      [("(", 0), ("a", 1), ("==", 1), ("b", 1), (";", 1), ("(", 1),
       ("c", 2), (")", 1), ("&&", 1), ("d", 1), (")", 0), ("", 0)] ∧
    (getC exSemi 5).type ≠ .compare := by
  refine ⟨by decide, by decide⟩

/-- C6 counterexample: on the two-member group `foo(1)` / `foo(2)`
followed by a closing brace at a shallower brace level, the aligner's
group end emits `Flush` on the call stack (and the argument stack), not
`End` - so under the documented contract (`Flush` discards, `End`
applies) the pending alignment is discarded: interpreting the whole
emitted trace leaves every column unchanged, although the group had two
members with argument anchors at columns 9 and 12. -/
theorem c6_group_end_flushes_cex :
    AlignOp.flush .fcn ∈ (alignScan cfg0 exAl).trace ∧
    AlignOp.fin .fcn ∉ (alignScan cfg0 exAl).trace ∧
    AlignOp.fin (.arg 0) ∉ (alignScan cfg0 exAl).trace ∧
    applyOps (align_same_func_call_params cfg0 exAl).trace pend0 exAl = exAl := by
  refine ⟨by decide, by decide, by decide, by decide⟩

/-- C8 counterexample: for the two-argument call `foo(a, <newline> b)`
the scan stops at the newline after the first comma, so `align_params`
returns a single anchor although the call's written arity is 2. -/
theorem c8_multiline_arity_cex :
    align_params exMl 0 = [2] ∧
    specWrittenArity exMl 0 = 2 ∧
    (align_params exMl 0).length ≠ specWrittenArity exMl 0 := by
  refine ⟨by decide, by decide, by decide⟩

/-- C9 counterexample: after the two additions of the numeric anchors of
`foo(1)` / `foo(2)` - with right-to-tab-stop alignment disabled and
numeric right alignment not suppressed - the per-argument stack's
`rightAlign` flag ends up false, because every addition to an existing
stack first resets the flag to false; the claimed biconditional (flag
true iff the anchor is numeric and tab-stop alignment is disabled) fails. -/
theorem c9_right_align_reset_cex :
    (align_same_func_call_params cfg0 exAl).rightAlign = [false] ∧
    isNumLike (getC exAl 3) = true ∧
    isNumLike (getC exAl 9) = true ∧
    cfg0.alignOnTabstop = false ∧
    cfg0.alignNumberRight = false := by
  refine ⟨by decide, by decide, by decide, by decide, by decide⟩

/-- Helper: one scan step of `check_bool_parens` aborts the whole region
scan, without touching the stream, when the next scanned token is
preprocessor-flagged. -/
lemma cbpScan_preproc_step (langCs : Bool) (fuel : Nat) (s : List Chunk)
    (popen pclose pc ref : Nat) (hit : Bool) (j : Nat)
    (h1 : nextNcNnl s pc = some j) (h2 : j ≠ pclose)
    (h3 : (getC s j).inPreproc = true) :
    cbpScan langCs (fuel+1) s popen pclose pc ref hit = (s, none) := by
  simp only [cbpScan, h1, h2, h3]
  simp

/-- C4 amended: a preprocessor-flagged token aborts the scan of the
region at the point where the scan meets it, with the stream kept as
already transformed and the final insertion skipped; in particular, a
region whose first scanned token is preprocessor-flagged is left
entirely unmodified.  (As the counterexample shows, insertions fired
earlier in the scan, before the flagged token is met, survive.) -/
theorem c4_preproc_abort (langCs : Bool) :
    (∀ fuel s popen pclose pc ref hit j,
        nextNcNnl s pc = some j → j ≠ pclose → (getC s j).inPreproc = true →
        cbpScan langCs (fuel+1) s popen pclose pc ref hit = (s, none)) ∧
    (∀ fuel s popen pclose j,
        nextNcNnl s popen = some j → j ≠ pclose → (getC s j).inPreproc = true →
        checkBoolParens langCs fuel s popen pclose = s) := by
  constructor
  · intro fuel s popen pclose pc ref hit j h1 h2 h3
    exact cbpScan_preproc_step langCs fuel s popen pclose pc ref hit j h1 h2 h3
  · intro fuel s popen pclose j h1 h2 h3
    match fuel with
    | 0 => simp [checkBoolParens]
    | 1 => simp [checkBoolParens, cbpScan]
    | f+2 =>
      simp only [checkBoolParens,
        cbpScan_preproc_step langCs f s popen pclose popen popen false j h1 h2 h3]

/-- C4 witness: instantiating the abort lemma on a region whose first
scanned token is preprocessor-flagged. -/
theorem c4_preproc_abort_witness :
    checkBoolParens false 50
      [mk .sparenOpen "(" 0 1, { mk .other "a" 1 2 with inPreproc := true },
       mk .sparenClose ")" 0 3] 0 2 =
      [mk .sparenOpen "(" 0 1, { mk .other "a" 1 2 with inPreproc := true },
       mk .sparenClose ")" 0 3] :=
  (c4_preproc_abort false).2 50
    [mk .sparenOpen "(" 0 1, { mk .other "a" 1 2 with inPreproc := true },
     mk .sparenClose ")" 0 3] 0 2 1 (by decide) (by decide) (by decide)

/-- C5 amended: when the scan meets a statement terminator inside the
region it resets `ref` to that token without inserting anything, but the
`hit_compare` flag is NOT invalidated - it is carried over unchanged, so
a comparison seen before the terminator can still trigger an insertion
(spanning from the terminator) at a later boundary or at the closing
delimiter even though no new comparison occurs after the terminator. -/
theorem c5_semicolon_resets_ref_keeps_compare (langCs : Bool) (fuel : Nat)
    (s : List Chunk) (popen pclose pc ref : Nat) (hit : Bool) (j : Nat)
    (h1 : nextNcNnl s pc = some j) (h2 : j ≠ pclose)
    (h3 : (getC s j).inPreproc = false)
    (h4 : (getC s j).type = .semicolon) :
    cbpScan langCs (fuel+1) s popen pclose pc ref hit =
      cbpScan langCs fuel s popen pclose j j hit := by
  simp only [cbpScan, h1, h2, h3, h4]
  simp [isBoundaryT, isParenOpenT]

/-- C5 witness: the semicolon step inside the region of `exSemi`, with a
pending comparison, moves `ref` to the terminator and keeps the pending
comparison. -/
theorem c5_semicolon_witness :
    cbpScan false 51 exSemi 0 8 3 0 true = cbpScan false 50 exSemi 0 8 4 4 true :=
  c5_semicolon_resets_ref_keeps_compare false 50 exSemi 0 8 3 0 true 4
    (by decide) (by decide) (by decide) (by decide)

/-- C9 amended: when an anchor is added at position `idx`, an already
existing per-argument stack has its `rightAlign` flag reset to false
(whatever the anchor is); a stack created on this first use gets
`rightAlign` set to the negation of the tab-stop option exactly when the
anchor is a numeric or sign literal AND numeric right alignment is not
configured, and false otherwise. -/
theorem c9_right_align_rule (cfg : AlignCfg) (s : List Chunk)
    (st : AlignerSt) (idx k : Nat) :
    (idx < st.arrayLen →
      (argAddLoop cfg s [k] idx st).rightAlign = st.rightAlign.set idx false ∧
      (argAddLoop cfg s [k] idx st).arrayLen = st.arrayLen) ∧
    (st.arrayLen ≤ idx →
      (argAddLoop cfg s [k] idx st).rightAlign =
        (padTo st.rightAlign (idx+1)).set idx
          (if cfg.alignNumberRight = false ∧ isNumLike (getC s k) = true
           then !cfg.alignOnTabstop else false) ∧
      (argAddLoop cfg s [k] idx st).arrayLen = idx + 1) := by
  constructor
  · intro h
    simp [argAddLoop, h, Nat.not_le_of_lt h]
  · intro h
    simp only [argAddLoop, Nat.not_lt.mpr h, if_false, if_neg (Nat.not_lt.mpr h), h, if_true]
    by_cases hn : cfg.alignNumberRight = false ∧ isNumLike (getC s k) = true
    · simp [hn]
    · simp [hn]

/-- C9 witness: creating the stack for a numeric anchor with numeric
right alignment allowed and tab-stop alignment disabled sets the flag to
true. -/
theorem c9_right_align_rule_witness :
    (argAddLoop cfg0 exAl [3] 0 (alignInit cfg0)).rightAlign =
      (padTo (alignInit cfg0).rightAlign 1).set 0
        (if cfg0.alignNumberRight = false ∧ isNumLike (getC exAl 3) = true
         then !cfg0.alignOnTabstop else false) :=
  ((c9_right_align_rule cfg0 exAl (alignInit cfg0) 0 3).2 (by decide)).1

/-- C6 amended: when an active alignment group ends - the scan meets a
non-call, non-newline token at a shallower brace level than the group
root, or a line-leading call candidate whose brace level, level or
qualified name differs from the root - the aligner emits `Flush`
(discarding pending alignment under the documented contract, not the
finalize-and-apply `End` operation) on the call stack and then on every
active per-argument stack, and clears the group; in the mismatch case
the rejected candidate then starts a fresh group in the same iteration. -/
theorem c6_group_end_flushes (cfg : AlignCfg) (s : List Chunk)
    (st : AlignerSt) (i r : Nat) :
    ((getC s i).type ≠ .funcCall → (getC s i).type ≠ .newline →
      st.alignRoot = some r →
      (getC s r).braceLevel > (getC s i).braceLevel →
      alignStep cfg s st i =
        { st with trace := st.trace ++ [.flush .fcn] ++
                    argOps (fun k => .flush (.arg k)) st.arrayLen,
                  alignRoot := none }) ∧
    (∀ p, (getC s i).type = .funcCall →
      unwindMembers s s.length (prevIdx i) = some p →
      (getC s p).type = .newline →
      st.alignRoot = some r →
      ¬((getC s r).braceLevel = (getC s i).braceLevel ∧
        (getC s r).level = (getC s i).level ∧
        nameOf s (p+1) i = st.alignRootName) →
      alignStep cfg s st i =
        argAddLoop cfg s (align_params s i) 0
          { st with trace := st.trace ++ [.flush .fcn] ++
                      argOps (fun k => .flush (.arg k)) st.arrayLen ++ [.add .fcn i],
                    alignRoot := some (p+1), alignRootName := nameOf s (p+1) i,
                    alignLen := 1 }) := by
  constructor
  · intro h1 h2 h3 h4
    simp [alignStep, h1, h2, h3, h4]
  · intro p h1 h2 h3 h4 h5
    simp [alignStep, optC, h1, h2, h3, h4, h5]

/-- Group-active aligner state used to exercise the group-end lemma. -/
def stW : AlignerSt :=
  { alignRoot := some 1, alignRootName := "foo", alignLen := 2,
    arrayLen := 1, rightAlign := [false], trace := [] }

/-- C6 witness: the closing brace of `exAl` at a shallower brace level
ends the two-member group by flushing the call stack and the argument
stack and clearing the root. -/
theorem c6_group_end_flushes_witness :
    alignStep cfg0 exAl stW 13 =
      { stW with trace := stW.trace ++ [.flush .fcn] ++
                   argOps (fun k => .flush (.arg k)) stW.arrayLen,
                 alignRoot := none } :=
  (c6_group_end_flushes cfg0 exAl stW 13 1).1
    (by decide) (by decide) (by decide) (by decide)

/-- Soundness of the forward search: a hit is in range, satisfies the
predicate, is at or after the start, and nothing before it matches. -/
lemma findFwd_some_spec (s : List Chunk) (p : Chunk → Bool) :
    ∀ fuel i j, findFwd s p fuel i = some j →
      i ≤ j ∧ j < s.length ∧ p (getC s j) = true ∧
      ∀ m, i ≤ m → m < j → p (getC s m) = false := by
  intro fuel
  induction fuel with
  | zero => intro i j h; simp [findFwd] at h
  | succ f ih =>
    intro i j h
    simp only [findFwd] at h
    split at h
    · split at h
      · cases h
        exact ⟨Nat.le_refl _, by assumption, by assumption, fun m h1 h2 => absurd h1 (by omega)⟩
      · obtain ⟨ha, hb, hc, hd⟩ := ih (i+1) j h
        refine ⟨by omega, hb, hc, fun m h1 h2 => ?_⟩
        rcases Nat.eq_or_lt_of_le h1 with h1 | h1
        · subst h1
          simp only [Bool.not_eq_true] at *
          assumption
        · exact hd m h1 h2
    · cases h

/-- Completeness of the forward search: with enough fuel, a matching
index at or after the start is found at or before any given match. -/
lemma findFwd_reaches (s : List Chunk) (p : Chunk → Bool) :
    ∀ fuel i t, i ≤ t → t < s.length → p (getC s t) = true → t < i + fuel →
      ∃ j, findFwd s p fuel i = some j ∧ j ≤ t := by
  intro fuel
  induction fuel with
  | zero => intro i t h1 _ _ h4; omega
  | succ f ih =>
    intro i t h1 h2 h3 h4
    simp only [findFwd]
    rw [if_pos (by omega)]
    by_cases hp : p (getC s i) = true
    · exact ⟨i, by rw [if_pos hp], h1⟩
    · have hit : i ≠ t := fun he => hp (he ▸ h3)
      obtain ⟨j, hj, hjt⟩ := ih (i+1) t (by omega) h2 h3 (by omega)
      refine ⟨j, ?_, hjt⟩
      rw [if_neg hp]
      exact hj

/-- Soundness of `nextNcNnl`. -/
lemma nextNcNnl_spec (s : List Chunk) (i j : Nat)
    (h : nextNcNnl s i = some j) :
    i < j ∧ j < s.length ∧ isNcNnl (getC s j) = true ∧
      ∀ m, i < m → m < j → isNcNnl (getC s m) = false := by
  obtain ⟨ha, hb, hc, hd⟩ := findFwd_some_spec s isNcNnl s.length (i+1) j h
  exact ⟨by omega, hb, hc, fun m h1 h2 => hd m (by omega) h2⟩

/-- Completeness of `nextNcNnl`: a visible token strictly after `i`
bounds the search result. -/
lemma nextNcNnl_reaches (s : List Chunk) (i t : Nat)
    (h1 : i < t) (h2 : t < s.length) (h3 : isNcNnl (getC s t) = true) :
    ∃ j, nextNcNnl s i = some j ∧ j ≤ t := by
  exact findFwd_reaches s isNcNnl s.length (i+1) t (by omega) h2 h3 (by omega)

/-- Tokens that `check_bool_parens` scans without moving `ref`, without
inserting and without bailing: not preprocessor-flagged, not a boundary
operator, not an opening parenthesis, not a statement terminator and not
a skipped bracket kind (comparison operators qualify). -/
def InertTok (c : Chunk) : Prop :=
  c.inPreproc = false ∧ isBoundaryT c.type = false ∧
  isParenOpenT c.type = false ∧ ¬(c.type = .semicolon) ∧
  isBraceLikeT c.type = false

instance (c : Chunk) : Decidable (InertTok c) := by
  unfold InertTok; infer_instance

/-- Helper: scanning a region whose interior consists only of inert
tokens never moves `ref` off the opening delimiter, never changes the
stream, and ends normally at the closing delimiter. -/
lemma cbpScan_inert (langCs : Bool) (s : List Chunk) (popen pclose : Nat)
    (hlen : pclose < s.length) (hnn : isNcNnl (getC s pclose) = true)
    (hint : ∀ j, j < pclose → popen < j → InertTok (getC s j)) :
    ∀ fuel pc hit, popen ≤ pc → pc < pclose →
      ∃ h2, cbpScan langCs fuel s popen pclose pc popen hit =
        (s, some (pclose, popen, h2)) := by
  intro fuel
  induction fuel with
  | zero => intro pc hit _ _; exact ⟨hit, rfl⟩
  | succ f ih =>
    intro pc hit hp1 hp2
    match hj : nextNcNnl s pc with
    | none => exact ⟨hit, by simp [cbpScan, hj]⟩
    | some j =>
      obtain ⟨ha, hb, hc, hd⟩ := nextNcNnl_spec s pc j hj
      have hjc : j ≤ pclose := by
        by_contra hgt
        have := hd pclose (by omega) (by omega)
        rw [hnn] at this
        cases this
      by_cases hje : j = pclose
      · exact ⟨hit, by simp [cbpScan, hj, hje]⟩
      · have hjlt : j < pclose := by omega
        obtain ⟨i1, i2, i3, i4, i5⟩ := hint j hjlt (by omega)
        by_cases hcmp : (getC s j).type = .compare
        · obtain ⟨h2, hres⟩ := ih j true (by omega) hjlt
          exact ⟨h2, by
            simp [cbpScan, hj, hje, i1, hcmp, isBoundaryT, hres]⟩
        · obtain ⟨h2, hres⟩ := ih j hit (by omega) hjlt
          exact ⟨h2, by
            simp [cbpScan, hj, hje, i1, i2, i3, i4, i5, hcmp, hres]⟩

/-- C3: the insertion primitive is a no-op whenever its two endpoints
are already adjacent; a region whose interior is free of boundary
operators, nested parentheses, terminators, skipped brackets and
preprocessor flags - the shape of a comparison already isolated between
two delimiters, such as a previously inserted `(b == 1)` - is returned
unchanged by `check_bool_parens`; and re-running the whole pass on its
own output for the two rewritten literal examples changes nothing. -/
theorem c3_second_run_inserts_nothing :
    (∀ s first last, nextNcNnl s first = some last →
      add_parens_between s first last = s) ∧
    (∀ langCs fuel s popen pclose, pclose < s.length →
      isNcNnl (getC s pclose) = true → popen < pclose →
      (∀ j, j < pclose → popen < j → InertTok (getC s j)) →
      checkBoolParens langCs fuel s popen pclose = s) ∧
    do_parens true false (do_parens true false exIf1) = do_parens true false exIf1 ∧
    do_parens true false (do_parens true false exIf2) = do_parens true false exIf2 := by
  refine ⟨?_, ?_, by decide, by decide⟩
  · intro s first last h
    simp [add_parens_between, h]
  · intro langCs fuel s popen pclose h1 h2 h3 h4
    match fuel with
    | 0 => simp [checkBoolParens]
    | f+1 =>
      obtain ⟨hbit, hres⟩ :=
        cbpScan_inert langCs s popen pclose h1 h2 h4 f popen false (Nat.le_refl _) h3
      simp [checkBoolParens, hres]

/-- Region `( b == 1 )` of an already fully parenthesized condition. -/
def exFlat : List Chunk :=
  [ mk .parenOpen "(" 1 5,
    mk .other "b" 2 6,
    mk .compare "==" 2 8,
    mk .number "1" 2 11,
    mk .parenClose ")" 1 12,
    mk .newline "" 0 13 ]

/-- C3 witness: the adjacency no-op and the isolated-comparison region,
on concrete inputs. -/
theorem c3_second_run_inserts_nothing_witness :
    add_parens_between exFlat 2 3 = exFlat ∧
    checkBoolParens false 40 exFlat 0 4 = exFlat :=
  ⟨c3_second_run_inserts_nothing.1 exFlat 2 3 (by decide),
   c3_second_run_inserts_nothing.2.1 false 40 exFlat 0 4 (by decide) (by decide)
     (by decide) (by decide)⟩

/-- Traces with no finalize operation. -/
def NoFin (l : List AlignOp) : Prop := ∀ op ∈ l, isFinOp op = false

/-- Helper: fin-freedom distributes over concatenation. -/
lemma noFin_append {l1 l2 : List AlignOp} (h1 : NoFin l1) (h2 : NoFin l2) :
    NoFin (l1 ++ l2) := by
  intro op hop
  rcases List.mem_append.mp hop with h | h
  · exact h1 op h
  · exact h2 op h

/-- Helper: per-stack operation batches built from a fin-free generator
are fin-free. -/
lemma noFin_argOps (f : Nat → AlignOp) (n : Nat)
    (hf : ∀ k, isFinOp (f k) = false) : NoFin (argOps f n) := by
  intro op hop
  obtain ⟨k, _, rfl⟩ := List.mem_map.mp hop
  exact hf k

/-- Helper: a singleton non-finalize operation is fin-free. -/
lemma noFin_single {op : AlignOp} (h : isFinOp op = false) : NoFin [op] := by
  intro o ho
  simp at ho
  subst ho
  exact h

/-- Helper: the per-anchor loop emits no finalize operation. -/
lemma argAddLoop_noFin (cfg : AlignCfg) (s : List Chunk) :
    ∀ ks idx st, NoFin st.trace → NoFin (argAddLoop cfg s ks idx st).trace := by
  intro ks
  induction ks with
  | nil => intro idx st h; exact h
  | cons k rest ih =>
    intro idx st h
    simp only [argAddLoop]
    apply ih
    apply noFin_append
    · split
      · have h1 : NoFin (st.trace ++ [AlignOp.setRight (.arg idx) false]) :=
          noFin_append h (noFin_single rfl)
        split
        · apply noFin_append
          · exact noFin_append h1 (noFin_single rfl)
          · split
            · exact noFin_single rfl
            · intro op hop; simp at hop
        · exact h1
      · split
        · apply noFin_append
          · exact noFin_append h (noFin_single rfl)
          · split
            · exact noFin_single rfl
            · intro op hop; simp at hop
        · exact h
    · exact noFin_single rfl

/-- Helper: one scan step emits no finalize operation. -/
lemma alignStep_noFin (cfg : AlignCfg) (s : List Chunk) (st : AlignerSt)
    (i : Nat) (h : NoFin st.trace) : NoFin (alignStep cfg s st i).trace := by
  by_cases hc : (getC s i).type = .funcCall
  · rcases hu : unwindMembers s s.length (prevIdx i) with _ | p
    · simp only [alignStep, hc, if_true, hu]
      exact h
    · by_cases hn : (getC s p).type = .newline
      · simp only [alignStep, hc, if_true, hu, hn]
        apply argAddLoop_noFin
        rcases hr : st.alignRoot with _ | r
        · simp only [hr]
          exact noFin_append h (noFin_single rfl)
        · simp only [hr]
          split
          · exact noFin_append h (noFin_single rfl)
          · apply noFin_append
            · apply noFin_append
              · exact noFin_append h (noFin_single rfl)
              · exact noFin_argOps _ _ (fun k => rfl)
            · exact noFin_single rfl
      · simp only [alignStep, hc, if_true, hu, hn]
        simp only [if_false]
        exact h
  · by_cases hn : (getC s i).type = .newline
    · simp only [alignStep, hc, hn]
      simp only [if_false, if_true]
      apply noFin_append
      apply noFin_append h
      · exact noFin_argOps _ _ (fun k => rfl)
      · exact noFin_single rfl
    · simp only [alignStep, hc, hn]
      simp only [if_false]
      rcases hr : st.alignRoot with _ | r
      · simp only [hr]
        exact h
      · simp only [hr]
        split
        · apply noFin_append
          · exact noFin_append h (noFin_single rfl)
          · exact noFin_argOps _ _ (fun k => rfl)
        · exact h

/-- Helper: folding scan steps preserves fin-freedom of the trace. -/
lemma foldl_alignStep_noFin (cfg : AlignCfg) (s : List Chunk) :
    ∀ (l : List Nat) (st : AlignerSt), NoFin st.trace →
      NoFin (l.foldl (alignStep cfg s) st).trace := by
  intro l
  induction l with
  | nil => intro st h; exact h
  | cons i rest ih =>
    intro st h
    exact ih (alignStep cfg s st i) (alignStep_noFin cfg s st i h)

/-- Helper: the whole scan trace is fin-free. -/
lemma alignScan_noFin (cfg : AlignCfg) (s : List Chunk) :
    NoFin (alignScan cfg s).trace :=
  foldl_alignStep_noFin cfg s (List.range s.length) (alignInit cfg)
    (noFin_single rfl)

/-- Helper: interpreting a fin-free trace never touches the stream. -/
lemma applyOps_noFin :
    ∀ (ops : List AlignOp) (p : PendSt) (s : List Chunk),
      NoFin ops → applyOps ops p s = s := by
  intro ops
  induction ops with
  | nil => intro p s _; rfl
  | cons op rest ih =>
    intro p s h
    have hop : isFinOp op = false := h op (List.mem_cons_self op rest)
    have hrest : NoFin rest := fun o ho => h o (List.mem_cons_of_mem op ho)
    match op with
    | .start id a b => exact ih _ s hrest
    | .add id k => exact ih _ s hrest
    | .newlines id n => exact ih _ s hrest
    | .flush id => exact ih _ s hrest
    | .setRight id b => exact ih _ s hrest
    | .fin id => simp [isFinOp] at hop

/-- C7: at end of stream the aligner emits the finalize (`End`)
operations - on the call stack and on every active per-argument stack -
exactly when the final group has more than one member, and the scan
itself never finalizes; consequently, when the final group has at most
one member the whole emitted trace applies no column mutation at all. -/
theorem c7_end_of_stream_finalize (cfg : AlignCfg) (s : List Chunk) :
    (AlignOp.fin .fcn ∈ (align_same_func_call_params cfg s).trace ↔
      1 < (alignScan cfg s).alignLen) ∧
    (¬1 < (alignScan cfg s).alignLen →
      applyOps (align_same_func_call_params cfg s).trace pend0 s = s) := by
  have hnf := alignScan_noFin cfg s
  constructor
  · constructor
    · intro hmem
      by_contra hlen
      rw [align_same_func_call_params, if_neg hlen] at hmem
      have := hnf _ hmem
      simp [isFinOp] at this
    · intro hlen
      rw [align_same_func_call_params, if_pos hlen]
      simp
  · intro hlen
    rw [align_same_func_call_params, if_neg hlen]
    exact applyOps_noFin _ pend0 s hnf

/-- C7 witness: on the stream `foo(a, <newline> b)` - whose lone call is
not line-leading, so the final group is empty - the emitted trace leaves
the stream untouched. -/
theorem c7_end_of_stream_finalize_witness :
    applyOps (align_same_func_call_params cfg0 exMl).trace pend0 exMl = exMl :=
  (c7_end_of_stream_finalize cfg0 exMl).2 (by decide)

/-- Helper: when every assignment token's backward scan lands on a
while-parented token, the assign pass loop is the identity. -/
lemma doParensAssignLoop_skip (langCs : Bool) (s : List Chunk)
    (h : ∀ j, j < s.length → (getC s j).type = .assign → stmtBackSkip s j = true) :
    ∀ fuel pc, doParensAssignLoop langCs fuel s pc = s := by
  intro fuel
  induction fuel with
  | zero => intro pc; rfl
  | succ f ih =>
    intro pc
    rcases hj : nextNcNnl s pc with _ | j
    · simp [doParensAssignLoop, hj]
    · have hjlen : j < s.length := (nextNcNnl_spec s pc j hj).2.1
      by_cases ha : (getC s j).type = .assign
      · have hs := h j hjlen ha
        simp [doParensAssignLoop, hj, ha, hs, ih]
      · simp [doParensAssignLoop, hj, ha, ih]

/-- Helper: when every return token's backward scan lands on a
while-parented token, the return pass loop is the identity. -/
lemma doParensReturnLoop_skip (langCs : Bool) (s : List Chunk)
    (h : ∀ j, j < s.length → (getC s j).type = .ret → stmtBackSkip s j = true) :
    ∀ fuel pc, doParensReturnLoop langCs fuel s pc = s := by
  intro fuel
  induction fuel with
  | zero => intro pc; rfl
  | succ f ih =>
    intro pc
    rcases hj : nextNcNnl s pc with _ | j
    · simp [doParensReturnLoop, hj]
    · have hjlen : j < s.length := (nextNcNnl_spec s pc j hj).2.1
      by_cases ha : (getC s j).type = .ret
      · have hs := h j hjlen ha
        simp [doParensReturnLoop, hj, ha, hs, ih]
      · simp [doParensReturnLoop, hj, ha, ih]

/-- C10: every assignment or return token whose backward scan (looking
for a statement start or an enclosing special-parenthesis open) stops on
a while-parented token - a do-while condition - is skipped by
`do_parens_assign` / `do_parens_return`: when that holds for every such
token of the stream, the passes insert nothing and return the stream
unchanged, even with their options enabled. -/
theorem c10_dowhile_condition_skipped (langCs : Bool) (s : List Chunk)
    (h : ∀ j, j < s.length →
      ((getC s j).type = .assign ∨ (getC s j).type = .ret) →
      stmtBackSkip s j = true) :
    do_parens_assign true langCs s = s ∧ do_parens_return true langCs s = s := by
  constructor
  · rw [do_parens_assign, if_pos rfl]
    exact doParensAssignLoop_skip langCs s
      (fun j hj ha => h j hj (Or.inl ha)) _ 0
  · rw [do_parens_return, if_pos rfl]
    exact doParensReturnLoop_skip langCs s
      (fun j hj ha => h j hj (Or.inr ha)) _ 0

/-- C10 witness: a do-while tail `while (x = a == 1 && b);` with the
option enabled is left untouched by the assign pass. -/
theorem c10_dowhile_condition_skipped_witness :
    do_parens_assign true false exDoWhile = exDoWhile ∧
    do_parens_return true false exDoWhile = exDoWhile :=
  c10_dowhile_condition_skipped false exDoWhile (by decide)

/-- Helper: on an argument region that does contain its closing
parenthesis and whose span holds no newline and no terminator, the
argument scan's anchor count equals the anchor count computed on the
comma projection of the depth-filtered token list. -/
lemma apLoop_length (lvl : Nat) :
    ∀ (l : List Chunk) (pos : Nat) (hit : Bool),
      hasClose lvl l = true →
      (∀ c ∈ argSpan lvl l, ¬(c.type = .newline) ∧ ¬(c.type = .semicolon)) →
      (apLoop lvl l pos hit).length =
        countAnchors ((topToks lvl l).map isCommaB) hit := by
  intro l
  induction l with
  | nil => intro pos hit hc _; simp [hasClose] at hc
  | cons c rest ih =>
    intro pos hit hc hsp
    by_cases hcl : c.type = .fparenClose ∧ c.level = lvl
    · simp [apLoop, hcl, argSpan, topToks, countAnchors]
    · have hcm : c ∈ argSpan lvl (c :: rest) := by
        simp [argSpan, hcl]
      obtain ⟨hnl, hsm⟩ := hsp c hcm
      have hc' : hasClose lvl rest = true := by
        simpa [hasClose, hcl] using hc
      have hsp' : ∀ x ∈ argSpan lvl rest,
          ¬(x.type = .newline) ∧ ¬(x.type = .semicolon) := by
        intro x hx
        apply hsp
        simp [argSpan, hcl]
        exact Or.inr hx
      by_cases hd : c.level = lvl + 1
      · by_cases hhit : hit = true
        · subst hhit
          simp [apLoop, hnl, hsm, hcl, hd, topToks, argSpan, countAnchors,
            ih (pos+1) false hc' hsp']
          omega
        · have hhf : hit = false := by
            cases hit
            · rfl
            · exact absurd rfl hhit
          subst hhf
          by_cases hcm2 : c.type = .comma
          · simp [apLoop, hnl, hsm, hcl, hd, hcm2, topToks, argSpan,
              countAnchors, isCommaB, ih (pos+1) true hc' hsp']
          · simp [apLoop, hnl, hsm, hcl, hd, hcm2, topToks, argSpan,
              countAnchors, isCommaB, ih (pos+1) false hc' hsp']
      · simp [apLoop, hnl, hsm, hcl, hd, topToks, argSpan,
          ih (pos+1) hit hc' hsp']

/-- Helper: on a well-formed comma projection (nonempty groups separated
by single commas) the anchor count is the comma count plus one - one
anchor per group. -/
lemma countAnchors_wf :
    ∀ l : List Bool,
      (wfA false l = true → countAnchors l false = l.countP (fun b => b)) ∧
      (wfA true l = true → countAnchors l l.isEmpty = 0 ∨ True) ∧
      (wfA true l = true → countAnchors l true = l.countP (fun b => b) + 1) := by
  intro l
  induction l with
  | nil =>
    refine ⟨fun _ => rfl, fun h => Or.inr trivial, fun h => by simp [wfA] at h⟩
  | cons b rest ih =>
    refine ⟨?_, fun h => Or.inr trivial, ?_⟩
    · intro h
      cases b
      · simpa [countAnchors, wfA] using (ih.1 (by simpa [wfA] using h))
      · simpa [countAnchors, wfA] using (ih.2.2 (by simpa [wfA] using h))
    · intro h
      cases b
      · have h1 := ih.1 (by simpa [wfA] using h)
        simp [countAnchors, h1]
        omega
      · simp [wfA] at h

/-- C8 amended: `align_params` returns one anchor per top-level argument
begun before the scan stops; when the argument region lies on one source
line (no newline and no statement terminator before the matching closing
parenthesis at the call's own level) and its top-level comma structure
is well formed, the anchor count equals the call's written arity, and
since only tokens exactly one level deeper than the call are examined, a
comma nested inside a deeper bracket never terminates an argument early. -/
theorem c8_anchor_count (s : List Chunk) (start p0 : Nat)
    (h1 : nextType s start .fparenOpen (getC s start).level = some p0)
    (h2 : hasClose (getC s start).level (s.drop (p0+1)) = true)
    (h3 : ∀ c ∈ argSpan (getC s start).level (s.drop (p0+1)),
        ¬(c.type = .newline) ∧ ¬(c.type = .semicolon))
    (h4 : wfArgs ((topToks (getC s start).level (s.drop (p0+1))).map isCommaB) = true) :
    (align_params s start).length = specWrittenArity s start := by
  rw [align_params, specWrittenArity, h1]
  rw [apLoop_length _ _ _ _ h2 h3]
  dsimp only
  cases ht : topToks (getC s start).level (s.drop (p0+1)) with
  | nil => simp [countAnchors]
  | cons x xs =>
    rw [ht] at h4
    have hwf : wfA true ((x :: xs).map isCommaB) = true := by
      simpa [wfArgs] using h4
    rw [(countAnchors_wf ((x :: xs).map isCommaB)).2.2 hwf]
    simp [List.countP_cons, List.countP_map, Function.comp]
    congr 1

/-- C8 witness: the single-line nested-call example `foo(g(x, y), c)`,
whose deep comma does not end the first argument, has two anchors and
written arity two. -/
theorem c8_anchor_count_witness :
    (align_params exNest 0).length = specWrittenArity exNest 0 :=
  c8_anchor_count exNest 0 1 (by decide) (by decide) (by decide) (by decide)

/-- Helper: reading an empty stream gives the null chunk. -/
lemma getC_nil (n : Nat) : getC [] n = defaultChunk := by
  cases n <;> rfl

/-- Helper: head read of a cons. -/
lemma getC_cons_zero (c : Chunk) (l : List Chunk) : getC (c :: l) 0 = c := rfl

/-- Helper: tail read of a cons. -/
lemma getC_cons_succ (c : Chunk) (l : List Chunk) (n : Nat) :
    getC (c :: l) (n+1) = getC l n := rfl

/-- Helper: insertion grows the length by one. -/
lemma length_insertAt (a : Chunk) :
    ∀ (n : Nat) (l : List Chunk), (insertAt a n l).length = l.length + 1 := by
  intro n
  induction n with
  | zero => intro l; cases l <;> rfl
  | succ m ih =>
    intro l
    cases l with
    | nil => rfl
    | cons c t => simp [insertAt, ih]

/-- Helper: reads strictly before an in-range insertion point are
unchanged. -/
lemma getC_insertAt_lt (a : Chunk) :
    ∀ (n : Nat) (l : List Chunk) (m : Nat), m < n → n ≤ l.length →
      getC (insertAt a n l) m = getC l m := by
  intro n
  induction n with
  | zero => intro l m h _; omega
  | succ k ih =>
    intro l m h hle
    cases l with
    | nil => simp at hle
    | cons c t =>
      cases m with
      | zero => rfl
      | succ m2 =>
        simp only [insertAt, getC_cons_succ]
        exact ih t m2 (by omega) (by simpa using hle)

/-- Helper: the inserted chunk sits at the insertion point. -/
lemma getC_insertAt_self (a : Chunk) :
    ∀ (n : Nat) (l : List Chunk), n ≤ l.length →
      getC (insertAt a n l) n = a := by
  intro n
  induction n with
  | zero => intro l _; cases l <;> rfl
  | succ k ih =>
    intro l h
    cases l with
    | nil => simp at h
    | cons c t =>
      simp only [insertAt, getC_cons_succ]
      exact ih t (by simpa using h)

/-- Helper: reads at or after the insertion point shift by one. -/
lemma getC_insertAt_ge (a : Chunk) :
    ∀ (n : Nat) (l : List Chunk) (m : Nat), n ≤ m →
      getC (insertAt a n l) (m+1) = getC l m := by
  intro n
  induction n with
  | zero =>
    intro l m _
    cases l <;> rfl
  | succ k ih =>
    intro l m h
    cases l with
    | nil =>
      cases m with
      | zero => omega
      | succ m2 => simp [insertAt, getC_cons_succ, getC_nil]
    | cons c t =>
      cases m with
      | zero => omega
      | succ m2 =>
        simp only [insertAt, getC_cons_succ]
        exact ih t m2 (by omega)

/-- Helper: the column-shift run preserves length. -/
lemma length_shiftRun : ∀ l : List Chunk, (shiftRun l).length = l.length := by
  intro l
  induction l with
  | nil => rfl
  | cons c t ih =>
    simp only [shiftRun]
    split <;> simp [ih]

/-- Helper: the column-shift run preserves type and level pointwise. -/
lemma getC_shiftRun (l : List Chunk) :
    ∀ m, (getC (shiftRun l) m).type = (getC l m).type ∧
      (getC (shiftRun l) m).level = (getC l m).level := by
  induction l with
  | nil => intro m; simp [shiftRun]
  | cons c t ih =>
    intro m
    simp only [shiftRun]
    split
    · cases m with
      | zero => exact ⟨rfl, rfl⟩
      | succ m2 => simp [getC_cons_succ]
    · cases m with
      | zero => exact ⟨rfl, rfl⟩
      | succ m2 => simpa [getC_cons_succ] using ih m2

/-- Helper: the column shift preserves length. -/
lemma length_shiftCols : ∀ (l : List Chunk) (i : Nat),
    (shiftCols l i).length = l.length := by
  intro l
  induction l with
  | nil => intro i; cases i <;> rfl
  | cons c t ih =>
    intro i
    cases i with
    | zero => simpa [shiftCols] using length_shiftRun (c :: t)
    | succ k => simp [shiftCols, ih]

/-- Helper: the column shift preserves type and level pointwise. -/
lemma getC_shiftCols (l : List Chunk) :
    ∀ (i m : Nat), (getC (shiftCols l i) m).type = (getC l m).type ∧
      (getC (shiftCols l i) m).level = (getC l m).level := by
  induction l with
  | nil => intro i m; cases i <;> simp [shiftCols]
  | cons c t ih =>
    intro i m
    cases i with
    | zero => simpa [shiftCols] using getC_shiftRun (c :: t) m
    | succ k =>
      cases m with
      | zero => exact ⟨rfl, rfl⟩
      | succ m2 => simpa [shiftCols, getC_cons_succ] using ih k m2

/-- Helper: chunks strictly before the shift start are untouched. -/
lemma getC_shiftCols_lt (l : List Chunk) :
    ∀ (i m : Nat), m < i → getC (shiftCols l i) m = getC l m := by
  induction l with
  | nil => intro i m _; cases i <;> simp [shiftCols]
  | cons c t ih =>
    intro i m h
    cases i with
    | zero => omega
    | succ k =>
      cases m with
      | zero => rfl
      | succ m2 => simpa [shiftCols, getC_cons_succ] using ih k m2 (by omega)

/-- Helper: point modification preserves length. -/
lemma length_modifyAt (f : Chunk → Chunk) :
    ∀ (i : Nat) (l : List Chunk), (modifyAt f i l).length = l.length := by
  intro i
  induction i with
  | zero => intro l; cases l <;> rfl
  | succ k ih =>
    intro l
    cases l with
    | nil => rfl
    | cons c t => simp [modifyAt, ih]

/-- Helper: reading the modified point. -/
lemma getC_modifyAt_self (f : Chunk → Chunk) :
    ∀ (i : Nat) (l : List Chunk), i < l.length →
      getC (modifyAt f i l) i = f (getC l i) := by
  intro i
  induction i with
  | zero =>
    intro l h
    cases l with
    | nil => simp at h
    | cons c t => rfl
  | succ k ih =>
    intro l h
    cases l with
    | nil => simp at h
    | cons c t =>
      simp only [modifyAt, getC_cons_succ]
      exact ih t (by simpa using h)

/-- Helper: reads away from the modified point are unchanged. -/
lemma getC_modifyAt_ne (f : Chunk → Chunk) :
    ∀ (i : Nat) (l : List Chunk) (m : Nat), m ≠ i →
      getC (modifyAt f i l) m = getC l m := by
  intro i
  induction i with
  | zero =>
    intro l m h
    cases l with
    | nil => rfl
    | cons c t =>
      cases m with
      | zero => omega
      | succ m2 => rfl
  | succ k ih =>
    intro l m h
    cases l with
    | nil => rfl
    | cons c t =>
      cases m with
      | zero => rfl
      | succ m2 =>
        simp only [modifyAt, getC_cons_succ]
        exact ih t m2 (by omega)

/-- Helper: soundness of the backward search. -/
lemma findBwd_some_spec (s : List Chunk) (p : Chunk → Bool) :
    ∀ fuel i j, findBwd s p fuel i = some j →
      j ≤ i ∧ j < s.length ∧ p (getC s j) = true ∧
      ∀ m, j < m → m ≤ i → m < s.length → p (getC s m) = false := by
  intro fuel
  induction fuel with
  | zero => intro i j h; simp [findBwd] at h
  | succ f ih =>
    intro i j h
    simp only [findBwd] at h
    split at h
    · cases h
      rename_i hc
      exact ⟨Nat.le_refl _, hc.1, hc.2, fun m h1 h2 _ => absurd h1 (by omega)⟩
    · rename_i hc
      split at h
      · cases h
      · obtain ⟨ha, hb, hp, hmin⟩ := ih (i-1) j h
        rename_i hiz
        refine ⟨by omega, hb, hp, fun m h1 h2 h3 => ?_⟩
        by_cases hm : m ≤ i - 1
        · exact hmin m h1 hm h3
        · have : m = i := by omega
          subst this
          by_contra hpm
          simp only [Bool.not_eq_false] at hpm
          exact hc ⟨h3, hpm⟩

/-- Helper: completeness of the backward search. -/
lemma findBwd_reaches (s : List Chunk) (p : Chunk → Bool) :
    ∀ fuel i t, t ≤ i → t < s.length → p (getC s t) = true → i < t + fuel →
      ∃ j, findBwd s p fuel i = some j ∧ t ≤ j := by
  intro fuel
  induction fuel with
  | zero => intro i t h1 _ _ h4; omega
  | succ f ih =>
    intro i t h1 h2 h3 h4
    simp only [findBwd]
    by_cases hc : i < s.length ∧ p (getC s i) = true
    · exact ⟨i, by rw [if_pos hc], h1⟩
    · have hne : t ≠ i := by
        intro he
        subst he
        exact hc ⟨h2, h3⟩
      have hlt : t < i := by omega
      rw [if_neg hc, if_neg (by omega)]
      exact ih (i-1) t (by omega) h2 h3 (by omega)

/-- Helper: soundness of `prevNcNnl`. -/
lemma prevNcNnl_spec (s : List Chunk) (i j : Nat)
    (h : prevNcNnl s i = some j) :
    j < i ∧ j < s.length ∧ isNcNnl (getC s j) = true ∧
      ∀ m, j < m → m < i → m < s.length → isNcNnl (getC s m) = false := by
  rw [prevNcNnl] at h
  split at h
  · cases h
  · rename_i hiz
    obtain ⟨ha, hb, hc, hd⟩ := findBwd_some_spec s isNcNnl s.length (i-1) j h
    exact ⟨by omega, hb, hc, fun m h1 h2 h3 => hd m h1 (by omega) h3⟩

/-- Helper: completeness of `prevNcNnl`. -/
lemma prevNcNnl_reaches (s : List Chunk) (i t : Nat)
    (h1 : t < i) (h2 : t < s.length) (h3 : isNcNnl (getC s t) = true)
    (h4 : i ≤ s.length) :
    ∃ j, prevNcNnl s i = some j ∧ t ≤ j := by
  rw [prevNcNnl, if_neg (by omega)]
  exact findBwd_reaches s isNcNnl s.length (i-1) t (by omega) h2 h3 (by omega)

/-- Helper: forward searches agree on streams of equal length whose
chunks agree under the predicate. -/
lemma findFwd_congr (s1 s2 : List Chunk) (p : Chunk → Bool)
    (hlen : s1.length = s2.length)
    (hp : ∀ m, p (getC s1 m) = p (getC s2 m)) :
    ∀ fuel i, findFwd s1 p fuel i = findFwd s2 p fuel i := by
  intro fuel
  induction fuel with
  | zero => intro i; rfl
  | succ f ih =>
    intro i
    simp only [findFwd, hlen, hp, ih]

/-- Helper: incrementing a level changes neither comment nor newline
status. -/
lemma isNcNnl_bumpLvl (c : Chunk) : isNcNnl (bumpLvl c) = isNcNnl c := rfl

/-- Helper: full characterization of the level-increment loop: starting
from a visible token `i`, every visible token in `[i, stop)` is bumped
exactly once and every other position is untouched. -/
lemma bumpLoop_levels :
    ∀ (n : Nat) (s : List Chunk) (i stop : Nat),
      stop - i ≤ n → i ≤ stop → stop < s.length →
      isNcNnl (getC s i) = true → isNcNnl (getC s stop) = true →
      ∀ m, getC (bumpLoop n s i stop) m =
        if i ≤ m ∧ m < stop ∧ isNcNnl (getC s m) = true
        then bumpLvl (getC s m) else getC s m := by
  intro n
  induction n with
  | zero =>
    intro s i stop hfuel hle hstop hni hns m
    have hiseq : i = stop := by omega
    subst hiseq
    simp only [bumpLoop]
    split
    · omega
    · rfl
  | succ f ih =>
    intro s i stop hfuel hle hstop hni hns m
    by_cases his : i = stop
    · simp only [bumpLoop]
      rw [if_pos his]
      split
      · omega
      · rfl
    · have hilt : i < stop := by omega
      have hilen : i < s.length := by omega
      simp only [bumpLoop, if_neg his]
      have hlen1 : (modifyAt bumpLvl i s).length = s.length := length_modifyAt bumpLvl i s
      have hpt : ∀ m2, isNcNnl (getC (modifyAt bumpLvl i s) m2) = isNcNnl (getC s m2) := by
        intro m2
        by_cases hm2 : m2 = i
        · rw [hm2, getC_modifyAt_self bumpLvl i s hilen, isNcNnl_bumpLvl]
        · rw [getC_modifyAt_ne bumpLvl i s m2 hm2]
      have hnext : nextNcNnl (modifyAt bumpLvl i s) i = nextNcNnl s i := by
        rw [nextNcNnl, nextNcNnl, hlen1]
        exact findFwd_congr _ s isNcNnl hlen1 hpt s.length (i+1)
      obtain ⟨j0, hj0, hj0le⟩ := nextNcNnl_reaches s i stop hilt hstop hns
      rw [hnext, hj0]
      obtain ⟨hja, hjb, hjc, hjd⟩ := nextNcNnl_spec s i j0 hj0
      have hrec := ih (modifyAt bumpLvl i s) j0 stop (by omega) hj0le
        (by omega) (by rw [hpt]; exact hjc)
        (by rw [hpt]; exact hns)
      rw [hrec m]
      by_cases hmi : m = i
      · subst hmi
        rw [if_neg (by omega), if_pos ⟨Nat.le_refl _, hilt, hni⟩]
        exact getC_modifyAt_self bumpLvl m s hilen
      · rw [getC_modifyAt_ne bumpLvl i s m hmi]
        by_cases hmr : j0 ≤ m ∧ m < stop ∧ isNcNnl (getC s m) = true
        · rw [if_pos hmr, if_pos ⟨by omega, hmr.2.1, hmr.2.2⟩]
        · rw [if_neg hmr]
          by_cases hmo : i ≤ m ∧ m < stop ∧ isNcNnl (getC s m) = true
          · have hbet : i < m ∧ m < j0 := by
              constructor
              · omega
              · by_contra hge
                exact hmr ⟨by omega, hmo.2.1, hmo.2.2⟩
            have := hjd m hbet.1 hbet.2
            rw [hmo.2.2] at this
            cases this
          · rw [if_neg hmo]

/-- Helper: the level-increment loop preserves length. -/
lemma bumpLoop_length :
    ∀ (n : Nat) (s : List Chunk) (i stop : Nat),
      (bumpLoop n s i stop).length = s.length := by
  intro n
  induction n with
  | zero => intro s i stop; rfl
  | succ f ih =>
    intro s i stop
    simp only [bumpLoop]
    split
    · rfl
    · split
      · exact length_modifyAt bumpLvl i s
      · rw [ih, length_modifyAt]

/-- Helper: visibility only depends on the token kind. -/
lemma isNcNnl_congr (c1 c2 : Chunk) (h : c1.type = c2.type) :
    isNcNnl c1 = isNcNnl c2 := by
  simp [isNcNnl, h]

/-- Helper: length through the open-parenthesis stage. -/
lemma apbOpen_length (s : List Chunk) (fn : Nat) :
    (apbOpen s fn).length = s.length + 1 := by
  rw [apbOpen, length_shiftCols, length_insertAt]

/-- Helper: the open stage leaves the prefix untouched. -/
lemma apbOpen_lt (s : List Chunk) (fn m : Nat) (hm : m < fn)
    (h : fn ≤ s.length) : getC (apbOpen s fn) m = getC s m := by
  rw [apbOpen, getC_shiftCols_lt _ _ _ (by omega),
    getC_insertAt_lt _ _ _ _ hm h]

/-- Helper: the open stage puts the new parenthesis at `fn`. -/
lemma apbOpen_self (s : List Chunk) (fn : Nat) (h : fn ≤ s.length) :
    getC (apbOpen s fn) fn = poChunk (getC s fn) := by
  rw [apbOpen, getC_shiftCols_lt _ _ _ (by omega),
    getC_insertAt_self _ _ _ h]

/-- Helper: the open stage shifts suffix positions by one, preserving
type and level. -/
lemma apbOpen_ge (s : List Chunk) (fn m : Nat) (hm : fn ≤ m) :
    (getC (apbOpen s fn) (m+1)).type = (getC s m).type ∧
    (getC (apbOpen s fn) (m+1)).level = (getC s m).level := by
  rw [apbOpen]
  obtain ⟨ht, hl⟩ := getC_shiftCols (insertAt (poChunk (getC s fn)) fn s) (fn+1) (m+1)
  rw [ht, hl, getC_insertAt_ge _ _ _ _ hm]
  exact ⟨rfl, rfl⟩

/-- Helper: length through the close-parenthesis stage. -/
lemma apbClose_length (s2 : List Chunk) (lp last : Nat) :
    (apbClose s2 lp last).length = s2.length + 1 := by
  rw [apbClose, length_shiftCols, length_insertAt]

/-- Helper: the close stage preserves type and level below the insertion
point. -/
lemma apbClose_lt (s2 : List Chunk) (lp last m : Nat) (hm : m < lp+1)
    (h : lp+1 ≤ s2.length) :
    (getC (apbClose s2 lp last) m).type = (getC s2 m).type ∧
    (getC (apbClose s2 lp last) m).level = (getC s2 m).level := by
  rw [apbClose]
  obtain ⟨ht, hl⟩ := getC_shiftCols (insertAt (pclChunk (getC s2 lp)) (lp+1) s2) (last+2) m
  rw [ht, hl, getC_insertAt_lt _ _ _ _ hm h]
  exact ⟨rfl, rfl⟩

/-- Helper: the close stage puts the new parenthesis at `lp+1`. -/
lemma apbClose_self (s2 : List Chunk) (lp last : Nat) (h : lp+1 ≤ s2.length) :
    (getC (apbClose s2 lp last) (lp+1)).type = .parenClose ∧
    (getC (apbClose s2 lp last) (lp+1)).level = (getC s2 lp).level := by
  rw [apbClose]
  obtain ⟨ht, hl⟩ := getC_shiftCols (insertAt (pclChunk (getC s2 lp)) (lp+1) s2) (last+2) (lp+1)
  rw [ht, hl, getC_insertAt_self _ _ _ h]
  exact ⟨rfl, rfl⟩

/-- Helper: the close stage shifts suffix positions by one, preserving
type and level. -/
lemma apbClose_ge (s2 : List Chunk) (lp last m : Nat) (hm : lp+1 ≤ m) :
    (getC (apbClose s2 lp last) (m+1)).type = (getC s2 m).type ∧
    (getC (apbClose s2 lp last) (m+1)).level = (getC s2 m).level := by
  rw [apbClose]
  obtain ⟨ht, hl⟩ := getC_shiftCols (insertAt (pclChunk (getC s2 lp)) (lp+1) s2) (last+2) (m+1)
  rw [ht, hl, getC_insertAt_ge _ _ _ _ hm]
  exact ⟨rfl, rfl⟩

/-- C2 amended: for a single inserting call of `add_parens_between`
(endpoints not adjacent), with `fn` the first visible token after
`first` and `lp0` the last visible token before `last`: the stream grows
by exactly the two new parenthesis tokens, placed at positions `fn` and
`lp0+2`; every non-comment non-newline token strictly between the two
new tokens (inclusive of the immediate predecessor of `last`) has its
level incremented by exactly one; comment and newline tokens strictly
inside the new pair keep their old level; and every token outside the
new pair keeps its level unchanged. -/
theorem c2_level_frame (s : List Chunk) (first last fn lp0 : Nat)
    (h1 : nextNcNnl s first = some fn)
    (h2 : fn ≠ last)
    (h3 : fn < last)
    (h4 : last < s.length)
    (h5 : prevNcNnl s last = some lp0) :
    (add_parens_between s first last).length = s.length + 2 ∧
    (getC (add_parens_between s first last) fn).type = .parenOpen ∧
    (getC (add_parens_between s first last) (lp0+2)).type = .parenClose ∧
    (∀ m, m < fn →
      (getC (add_parens_between s first last) m).level = (getC s m).level) ∧
    (∀ m, fn ≤ m → m ≤ lp0 → isNcNnl (getC s m) = true →
      (getC (add_parens_between s first last) (m+1)).level = (getC s m).level + 1) ∧
    (∀ m, fn ≤ m → m ≤ lp0 → isNcNnl (getC s m) = false →
      (getC (add_parens_between s first last) (m+1)).level = (getC s m).level) ∧
    (∀ m, lp0 < m → m < s.length →
      (getC (add_parens_between s first last) (m+2)).level = (getC s m).level) := by
  obtain ⟨hf1, hf2, hf3, hf4⟩ := nextNcNnl_spec s first fn h1
  obtain ⟨hp1, hp2, hp3, hp4⟩ := prevNcNnl_spec s last lp0 h5
  have hfl : fn ≤ lp0 := by
    by_contra hgt
    have hx := hp4 fn (by omega) h3 hf2
    rw [hf3] at hx
    cases hx
  have hlen2 : (apbOpen s fn).length = s.length + 1 := apbOpen_length s fn
  have h2ge : ∀ m, fn ≤ m →
      (getC (apbOpen s fn) (m+1)).type = (getC s m).type ∧
      (getC (apbOpen s fn) (m+1)).level = (getC s m).level :=
    fun m hm => apbOpen_ge s fn m hm
  have hlp : prevNcNnl (apbOpen s fn) (last+1) = some (lp0+1) := by
    have hnn2 : isNcNnl (getC (apbOpen s fn) (lp0+1)) = true := by
      rw [isNcNnl_congr _ _ (h2ge lp0 hfl).1]
      exact hp3
    obtain ⟨j, hj, hjge⟩ := prevNcNnl_reaches (apbOpen s fn) (last+1) (lp0+1)
      (by omega) (by omega) hnn2 (by omega)
    obtain ⟨hq1, hq2, hq3, hq4⟩ := prevNcNnl_spec _ _ _ hj
    have hjle : j ≤ lp0+1 := by
      by_contra hgt
      have hjt := (h2ge (j-1) (by omega)).1
      have hj1 : j - 1 + 1 = j := by omega
      rw [hj1] at hjt
      have hns : isNcNnl (getC s (j-1)) = false :=
        hp4 (j-1) (by omega) (by omega) (by omega)
      have hcg := isNcNnl_congr _ _ hjt
      rw [hq3, hns] at hcg
      cases hcg
    have hjeq : j = lp0+1 := by omega
    rw [← hjeq]
    exact hj
  have hr : add_parens_between s first last =
      modifyAt bumpLvl (lp0+1)
        (bumpLoop (apbClose (apbOpen s fn) (lp0+1) last).length
          (apbClose (apbOpen s fn) (lp0+1) last) (fn+1) (lp0+1)) := by
    simp only [add_parens_between, h1]
    rw [if_neg h2]
    simp only [hlp]
  have hcl : lp0 + 1 + 1 ≤ (apbOpen s fn).length := by omega
  have hlen4 : (apbClose (apbOpen s fn) (lp0+1) last).length = s.length + 2 := by
    rw [apbClose_length, hlen2]
  have h4pre : ∀ m, m < lp0+2 →
      (getC (apbClose (apbOpen s fn) (lp0+1) last) m).type =
        (getC (apbOpen s fn) m).type ∧
      (getC (apbClose (apbOpen s fn) (lp0+1) last) m).level =
        (getC (apbOpen s fn) m).level :=
    fun m hm => apbClose_lt (apbOpen s fn) (lp0+1) last m hm hcl
  have h4self := apbClose_self (apbOpen s fn) (lp0+1) last hcl
  have h4ge : ∀ m, lp0+2 ≤ m →
      (getC (apbClose (apbOpen s fn) (lp0+1) last) (m+1)).type =
        (getC (apbOpen s fn) m).type ∧
      (getC (apbClose (apbOpen s fn) (lp0+1) last) (m+1)).level =
        (getC (apbOpen s fn) m).level :=
    fun m hm => apbClose_ge (apbOpen s fn) (lp0+1) last m hm
  have hnn4fn : isNcNnl (getC (apbClose (apbOpen s fn) (lp0+1) last) (fn+1)) = true := by
    rw [isNcNnl_congr _ _ ((h4pre (fn+1) (by omega)).1.trans (h2ge fn (Nat.le_refl fn)).1)]
    exact hf3
  have hnn4lp : isNcNnl (getC (apbClose (apbOpen s fn) (lp0+1) last) (lp0+1)) = true := by
    rw [isNcNnl_congr _ _ ((h4pre (lp0+1) (by omega)).1.trans (h2ge lp0 hfl).1)]
    exact hp3
  have hbump := bumpLoop_levels (apbClose (apbOpen s fn) (lp0+1) last).length
    (apbClose (apbOpen s fn) (lp0+1) last) (fn+1) (lp0+1)
    (by omega) (by omega) (by omega) hnn4fn hnn4lp
  refine ⟨?_, ?_, ?_, ?_, ?_, ?_, ?_⟩
  · rw [hr, length_modifyAt, bumpLoop_length, hlen4]
  · rw [hr, getC_modifyAt_ne _ _ _ _ (by omega), hbump fn,
      if_neg (fun hcon => absurd hcon.1 (by omega)),
      (h4pre fn (by omega)).1, apbOpen_self s fn (by omega)]
    rfl
  · rw [hr, getC_modifyAt_ne _ _ _ _ (by omega), hbump (lp0+2),
      if_neg (fun hcon => absurd hcon.2.1 (by omega))]
    exact h4self.1
  · intro m hm
    rw [hr, getC_modifyAt_ne _ _ _ _ (by omega), hbump m,
      if_neg (fun hcon => absurd hcon.1 (by omega)),
      (h4pre m (by omega)).2, apbOpen_lt s fn m hm (by omega)]
  · intro m hm1 hm2 hm3
    by_cases hml : m = lp0
    · subst hml
      rw [hr, getC_modifyAt_self _ _ _ (by rw [bumpLoop_length, hlen4]; omega),
        hbump (m+1), if_neg (fun hcon => absurd hcon.2.1 (by omega))]
      show (getC (apbClose (apbOpen s fn) (m+1) last) (m+1)).level + 1 = _
      rw [(h4pre (m+1) (by omega)).2, (h2ge m hm1).2]
    · rw [hr, getC_modifyAt_ne _ _ _ _ (by omega), hbump (m+1)]
      have hnn4m : isNcNnl (getC (apbClose (apbOpen s fn) (lp0+1) last) (m+1)) = true := by
        rw [isNcNnl_congr _ _ ((h4pre (m+1) (by omega)).1.trans (h2ge m hm1).1)]
        exact hm3
      rw [if_pos ⟨by omega, by omega, hnn4m⟩]
      show (getC (apbClose (apbOpen s fn) (lp0+1) last) (m+1)).level + 1 = _
      rw [(h4pre (m+1) (by omega)).2, (h2ge m hm1).2]
  · intro m hm1 hm2 hm3
    have hml : m ≠ lp0 := by
      intro he
      rw [he, hp3] at hm3
      cases hm3
    have hnn4m : isNcNnl (getC (apbClose (apbOpen s fn) (lp0+1) last) (m+1)) = false := by
      rw [isNcNnl_congr _ _ ((h4pre (m+1) (by omega)).1.trans (h2ge m hm1).1)]
      exact hm3
    rw [hr, getC_modifyAt_ne _ _ _ _ (by omega), hbump (m+1),
      if_neg (by simp [hnn4m]),
      (h4pre (m+1) (by omega)).2, (h2ge m hm1).2]
  · intro m hm1 hm2
    rw [hr, getC_modifyAt_ne _ _ _ _ (by omega), hbump (m+2),
      if_neg (fun hcon => absurd hcon.2.1 (by omega)),
      (h4ge (m+1) (by omega)).2, (h2ge m (by omega)).2]

/-- C2 witness: the frame property instantiated on the region
`&& a <newline> b )` - the open parenthesis lands at index 1, the close
at 5, `a` and the newline sit strictly inside (only `a` is bumped), and
the tokens outside keep their levels. -/
theorem c2_level_frame_witness :
    (add_parens_between exNl 0 4).length = exNl.length + 2 ∧
    (getC (add_parens_between exNl 0 4) 1).type = .parenOpen ∧
    (getC (add_parens_between exNl 0 4) 5).type = .parenClose ∧
    (getC (add_parens_between exNl 0 4) 0).level = (getC exNl 0).level ∧
    (getC (add_parens_between exNl 0 4) 2).level = (getC exNl 1).level + 1 ∧
    (getC (add_parens_between exNl 0 4) 3).level = (getC exNl 2).level ∧
    (getC (add_parens_between exNl 0 4) 6).level = (getC exNl 4).level := by
  have h := c2_level_frame exNl 0 4 1 3 (by decide) (by decide) (by decide)
    (by decide) (by decide)
  exact ⟨h.1, h.2.1, h.2.2.1, h.2.2.2.1 0 (by decide),
    h.2.2.2.2.1 1 (by decide) (by decide) (by decide),
    h.2.2.2.2.2.1 2 (by decide) (by decide) (by decide),
    h.2.2.2.2.2.2 4 (by decide) (by decide)⟩
